import Mathlib

/-!
# Library Book Manager (`src/Calculator.cpp`, second program)

A shallow embedding of the book-lending record store: the record codec
(`Book::serialize`, `Book::deserialize`), the loaders, the ID generator and the
borrow/return state machine of `class Library`.

Modelling conventions

* `std::string` is a list of characters (`Str`).
* `int` is a mathematical integer kept in the 32-bit range; the two places where
  the program does arithmetic on the counter (`maxNum + 1`, `nextIdNumber++`)
  wrap around modulo `2^32` (`wrapInt`).
* A C++ exception that nobody catches is the value `none`.
* The text read from `cin` is passed to the operations as arguments; `nowStr()`
  is an argument as well.
* The files are texts: `saveToFile` produces the text of `books.txt`,
  `loadFromFile` consumes it.
-/

namespace LibraryManager

/-- A `std::string`. -/
abbrev Str := List Char

/-! ## Helper utilities -/

/-- Membership in the character set `" \t\r\n"` used by `trim`. -/
def isTrimChar (c : Char) : Bool :=
  c == ' ' || c == '\t' || c == '\r' || c == '\n'

/-- The value of `s.find_first_not_of(" \t\r\n")`; `none` is `npos`. -/
def findFirstNotOf : Str → Option Nat
  | [] => none
  | c :: cs => if isTrimChar c then (findFirstNotOf cs).map (· + 1) else some 0

/-- The value of `s.find_last_not_of(" \t\r\n")`; `none` is `npos`. -/
def findLastNotOf : Str → Option Nat
  | [] => none
  | c :: cs =>
    match findLastNotOf cs with
    | some i => some (i + 1)
    | none => if isTrimChar c then none else some 0

/-- The value of `s.substr(pos, len)` for `pos ≤ s.size()`. -/
def substr (s : Str) (pos len : Nat) : Str := (s.drop pos).take len

/-- The function `trim`: remove leading and trailing blanks. -/
def trim (s : Str) : Str :=
  match findFirstNotOf s with
  | none => []
  | some start =>
    match findLastNotOf s with
    | none => []
    | some stop => substr s start (stop - start + 1)

/-- The function `::tolower` in the "C" locale. -/
def tolower (c : Char) : Char :=
  if 65 ≤ c.toNat ∧ c.toNat ≤ 90 then Char.ofNat (c.toNat + 32) else c

/-- The function `toLower`: `std::transform` with `::tolower`. -/
def toLower (s : Str) : Str := s.map tolower

/-- The test `hay.find(needle) != string::npos`. -/
def contains (hay needle : Str) : Bool :=
  match hay with
  | [] => needle.isEmpty
  | c :: cs => needle.isPrefixOf (c :: cs) || contains cs needle

/-! ## Integers as text -/

/-- The least `int`. -/
def INT_MIN : Int := -2147483648

/-- The greatest `int`. -/
def INT_MAX : Int := 2147483647

/-- Two's-complement wrap-around of an integer into the range of `int`. -/
def wrapInt (i : Int) : Int := (i + 2147483648) % 4294967296 - 2147483648

/-- The characters `operator<<` writes for a non-negative number. -/
def natToStr (n : Nat) : Str := Nat.toDigits 10 n

/-- The characters `operator<<` writes for an `int`. -/
def intToStr (i : Int) : Str :=
  if i < 0 then '-' :: natToStr i.natAbs else natToStr i.natAbs

/-- The function `isspace` in the "C" locale. -/
def isspace (c : Char) : Bool :=
  c == ' ' || c == '\t' || c == '\n' || c == Char.ofNat 11 || c == Char.ofNat 12 || c == '\r'

/-- The value of a decimal digit character. -/
def digitVal (c : Char) : Nat := c.toNat - 48

/-- The number written by a run of decimal digits. -/
def digitsVal (ds : Str) : Nat := ds.foldl (fun a c => 10 * a + digitVal c) 0

/-- The function `std::stoi`: skip white space, read an optional sign and the
longest run of digits. `none` stands for the exception it throws
(`invalid_argument` when there is no digit, `out_of_range` when the number does
not fit an `int`). -/
def stoi (s : Str) : Option Int :=
  let s1 := s.dropWhile isspace
  let signed : Bool × Str :=
    match s1 with
    | [] => (false, [])
    | c :: r => if c = '-' then (true, r) else if c = '+' then (false, r) else (false, c :: r)
  let ds := signed.2.takeWhile Char.isDigit
  if ds.isEmpty then none
  else
    let v : Int := if signed.1 then -(digitsVal ds : Int) else (digitsVal ds : Int)
    if INT_MIN ≤ v ∧ v ≤ INT_MAX then some v else none

/-! ## Reading delimited text -/

/-- One call `getline(ss, token, delim)`: `none` when the call fails (nothing
left to read), otherwise the token and the unread rest. -/
def getline (delim : Char) : Str → Option (Str × Str)
  | [] => none
  | c :: cs =>
    if c = delim then some ([], cs)
    else
      match getline delim cs with
      | none => some ([c], [])
      | some (t, r) => some (c :: t, r)

/-- The tokens collected by `while (getline(ss, token, delim)) parts.push_back(token);`. -/
def getlineAll (delim : Char) : Str → List Str
  | [] => []
  | c :: cs =>
    if c = delim then [] :: getlineAll delim cs
    else
      match getlineAll delim cs with
      | [] => [[c]]
      | t :: ts => (c :: t) :: ts

/-! ## Book -/

/-- The class `Book`. -/
structure Book where
  id : Str
  title : Str
  author : Str
  year : Int
  isBorrowed : Bool
  borrower : Str
  deriving DecidableEq, Repr

namespace Book

/-- The default constructor `Book()`. -/
def empty : Book := ⟨[], [], [], 0, false, []⟩

/-- The lambda `esc`: replace every `'|'` by `'/'`. -/
def esc (s : Str) : Str := s.map (fun c => if c = '|' then '/' else c)

/-- The method `Book::serialize`. -/
def serialize (b : Book) : Str :=
  b.id ++ ['|'] ++ esc b.title ++ ['|'] ++ esc b.author ++ ['|'] ++ intToStr b.year
    ++ ['|'] ++ (if b.isBorrowed then ['1'] else ['0']) ++ ['|'] ++ esc b.borrower

/-- The method `Book::deserialize`; `none` when `stoi` throws. -/
def deserialize (line : Str) : Option Book :=
  match getlineAll '|' line with
  | p0 :: p1 :: p2 :: p3 :: p4 :: p5 :: _ =>
    match stoi p3 with
    | none => none
    | some y => some ⟨p0, p1, p2, y, p4 == ['1'], p5⟩
  | _ => some Book.empty

/-- The record the round trip is expected to give: every `'|'` of the text
fields replaced by `'/'`. -/
def canonical (b : Book) : Book :=
  { b with title := esc b.title, author := esc b.author, borrower := esc b.borrower }

end Book

/-! ## Books file -/

/-- The text `Library::saveToFile` writes to `books.txt`. -/
def saveToFile (books : List Book) : Str :=
  (books.map (fun b => b.serialize ++ ['\n'])).flatten

/-- The loop of `Library::loadFromFile` over the lines already read. -/
def loadLines : List Str → Option (List Book)
  | [] => some []
  | line :: rest =>
    if (trim line).isEmpty then loadLines rest
    else
      match Book.deserialize line with
      | none => none
      | some b =>
        match loadLines rest with
        | none => none
        | some bs => some (if b.id.isEmpty then bs else b :: bs)

/-- The method `Library::loadFromFile` on the text of `books.txt`; `none` when an
exception leaves the method. -/
def loadFromFile (file : Str) : Option (List Book) :=
  loadLines (getlineAll '\n' file)

/-! ## History entries -/

/-- The struct `HistoryEntry`. -/
structure HistoryEntry where
  timestamp : Str
  action : Str
  bookID : Str
  title : Str
  byWho : Str
  deriving DecidableEq, Repr

/-- The text `"BORROW"`. -/
def BORROW : Str := ['B', 'O', 'R', 'R', 'O', 'W']

/-- The text `"RETURN"`. -/
def RETURN : Str := ['R', 'E', 'T', 'U', 'R', 'N']

/-! ## Library -/

/-- The data members of `class Library` that change: `books`, `history` and
`nextIdNumber`. -/
structure Library where
  books : List Book
  history : List HistoryEntry
  nextIdNumber : Int
  deriving DecidableEq, Repr

/-- The member `borrowLimitPerUser`. -/
def borrowLimitPerUser : Nat := 2

/-- The effect of `setw(w) << setfill(fill)` on one output item. -/
def padLeft (w : Nat) (fill : Char) (s : Str) : Str :=
  List.replicate (w - s.length) fill ++ s

/-- The text `generateNextId` builds for the counter value `n`. -/
def formatId (n : Int) : Str := ['B', 'K'] ++ padLeft 3 '0' (intToStr n)

/-- The method `Library::generateNextId`: the ID and the library with the
counter incremented. -/
def generateNextId (lib : Library) : Str × Library :=
  (formatId lib.nextIdNumber, { lib with nextIdNumber := wrapInt (lib.nextIdNumber + 1) })

/-- One iteration of the loop of `recalcNextId`. -/
def scanStep (maxNum : Int) (b : Book) : Int :=
  if 5 ≤ b.id.length ∧ substr b.id 0 2 = ['B', 'K'] then
    match stoi (b.id.drop 2) with
    | some n => if n > maxNum then n else maxNum
    | none => maxNum
  else maxNum

/-- The value of `maxNum` at the end of the loop of `recalcNextId`. -/
def scanMax (books : List Book) : Int := books.foldl scanStep 0

/-- The method `Library::recalcNextId`. -/
def recalcNextId (lib : Library) : Library :=
  { lib with nextIdNumber := wrapInt (scanMax lib.books + 1) }

/-- The method `Library::countBorrowedByUser`. -/
def countBorrowedByUser (books : List Book) (name : Str) : Nat :=
  books.countP (fun b => b.isBorrowed && toLower (trim b.borrower) == toLower (trim name))

/-- The method `Library::findById`: the position of the first book with that
ID, `none` for `nullptr`. -/
def findById : List Book → Str → Option Nat
  | [], _ => none
  | b :: bs, id => if b.id = id then some 0 else (findById bs id).map (· + 1)

/-- The book a pointer returned by `findById` points to. -/
def bookAt (books : List Book) (i : Nat) : Book := books.getD i Book.empty

/-- An assignment through a pointer returned by `findById`. -/
def modifyAt (f : Book → Book) : List Book → Nat → List Book
  | [], _ => []
  | b :: bs, 0 => f b :: bs
  | b :: bs, i + 1 => b :: modifyAt f bs i

/-- The assignments `b->isBorrowed = true; b->borrower = name;`. -/
def markBorrowed (name : Str) (b : Book) : Book :=
  { b with isBorrowed := true, borrower := name }

/-- The assignments `b->isBorrowed = false; b->borrower = "";`. -/
def markReturned (b : Book) : Book :=
  { b with isBorrowed := false, borrower := [] }

/-- What an operation reports to the user. -/
inductive Outcome where
  | done
  | notFound
  | invalidId
  | alreadyBorrowed
  | emptyName
  | limitExceeded
  | notBorrowed
  | nameMismatch
  | cancelled
  deriving DecidableEq, Repr

deriving instance DecidableEq for Except

/-- The constructor `Library::Library` given the text of `books.txt` and the
history already loaded; `none` when an exception leaves it. -/
def Library.load (booksFile : Str) (history : List HistoryEntry) : Option Library :=
  match loadFromFile booksFile with
  | none => none
  | some bs => some (recalcNextId ⟨bs, history, 1⟩)

/-- The method `Library::addBookInteractive`. -/
def addBookInteractive (lib : Library) (title author : Str) (year : Int) : Str × Library :=
  let g := generateNextId lib
  (g.1, { g.2 with books := g.2.books ++ [⟨g.1, trim title, trim author, year, false, []⟩] })

/-- The method `Library::updateBookInteractive`. -/
def updateBookInteractive (lib : Library) (id newTitle newAuthor : Str) (newYear : Int) :
    Outcome × Library :=
  match findById lib.books id with
  | none => (Outcome.notFound, lib)
  | some i =>
    let f := fun (b : Book) =>
      let b1 := if !(trim newTitle).isEmpty then { b with title := trim newTitle } else b
      let b2 := if !(trim newAuthor).isEmpty then { b1 with author := trim newAuthor } else b1
      if newYear ≠ 0 then { b2 with year := newYear } else b2
    (Outcome.done, { lib with books := modifyAt f lib.books i })

/-- The method `Library::deleteBookInteractive`; `c` is the answer to the
confirmation prompt. -/
def deleteBookInteractive (lib : Library) (id : Str) (c : Char) : Outcome × Library :=
  match findById lib.books id with
  | none => (Outcome.notFound, lib)
  | some i =>
    if c = 'y' ∨ c = 'Y' then (Outcome.done, { lib with books := lib.books.eraseIdx i })
    else (Outcome.cancelled, lib)

/-- The positions collected by the fallback search of `borrowInteractive`. -/
def titleMatches (books : List Book) (qlow : Str) : List Nat :=
  (List.range books.length).filter (fun i => contains (toLower (bookAt books i).title) qlow)

/-- The first part of `borrowInteractive`: the book the request resolves to.
The text `q` is the trimmed query, `id2` the ID typed after the list of matches. -/
def resolveBorrow (books : List Book) (q id2 : Str) : Except Outcome Nat :=
  match findById books q with
  | some i => Except.ok i
  | none =>
    if (titleMatches books (toLower q)).isEmpty then Except.error Outcome.notFound
    else
      match findById books id2 with
      | some i => Except.ok i
      | none => Except.error Outcome.invalidId

/-- The method `Library::borrowInteractive`; `q`, `id2` and `name` are the texts
typed by the user, `now` is the value of `nowStr()`. -/
def borrowInteractive (lib : Library) (q id2 name now : Str) : Outcome × Library :=
  match resolveBorrow lib.books (trim q) id2 with
  | Except.error e => (e, lib)
  | Except.ok i =>
    let b := bookAt lib.books i
    if b.isBorrowed then (Outcome.alreadyBorrowed, lib)
    else
      let name := trim name
      if name.isEmpty then (Outcome.emptyName, lib)
      else if countBorrowedByUser lib.books name ≥ borrowLimitPerUser then
        (Outcome.limitExceeded, lib)
      else
        (Outcome.done,
          { lib with
            books := modifyAt (markBorrowed name) lib.books i
            history := lib.history ++ [⟨now, BORROW, b.id, b.title, name⟩] })

/-- The method `Library::returnInteractive`. -/
def returnInteractive (lib : Library) (id name now : Str) : Outcome × Library :=
  match findById lib.books id with
  | none => (Outcome.notFound, lib)
  | some i =>
    let b := bookAt lib.books i
    if !b.isBorrowed then (Outcome.notBorrowed, lib)
    else
      let name := trim name
      if toLower name ≠ toLower b.borrower then (Outcome.nameMismatch, lib)
      else
        (Outcome.done,
          { lib with
            books := modifyAt markReturned lib.books i
            history := lib.history ++ [⟨now, RETURN, b.id, b.title, name⟩] })

/-- A request to the library together with the texts typed by the user. -/
inductive Op where
  | add (title author : Str) (year : Int)
  | update (id newTitle newAuthor : Str) (newYear : Int)
  | delete (id : Str) (c : Char)
  | borrow (q id2 name now : Str)
  | giveBack (id name now : Str)
  deriving DecidableEq, Repr

/-- The library after one request. -/
def step (lib : Library) : Op → Library
  | Op.add t a y => (addBookInteractive lib t a y).2
  | Op.update id t a y => (updateBookInteractive lib id t a y).2
  | Op.delete id c => (deleteBookInteractive lib id c).2
  | Op.borrow q id2 n now => (borrowInteractive lib q id2 n now).2
  | Op.giveBack id n now => (returnInteractive lib id n now).2

/-- The library after a sequence of requests. -/
def run (lib : Library) (ops : List Op) : Library := ops.foldl step lib

/-- The IDs handed out by the `add` requests of a sequence, in order. -/
def generatedIds (lib : Library) : List Op → List Str
  | [] => []
  | Op.add t a y :: ops =>
    (addBookInteractive lib t a y).1 :: generatedIds (addBookInteractive lib t a y).2 ops
  | op :: ops => generatedIds (step lib op) ops

/-- The number of `add` requests in a sequence. -/
def countAdds : List Op → Nat
  | [] => 0
  | Op.add _ _ _ :: ops => countAdds ops + 1
  | _ :: ops => countAdds ops

/-- The numeric suffix of an ID as `recalcNextId` reads it: `stoi(id.substr(2))`. -/
def idNumber (id : Str) : Option Int := stoi (id.drop 2)

/-! ## The `BK###` pattern of the specification -/

/-- An ID matches the pattern `BK###`: `BK` followed only by decimal digits, at
least three. -/
def matchesPattern (id : Str) : Bool :=
  id.take 2 == ['B', 'K'] && decide (3 ≤ (id.drop 2).length) && (id.drop 2).all Char.isDigit

/-- The numeric suffix of an ID that matches the pattern. -/
def patternNumber (id : Str) : Nat := digitsVal (id.drop 2)

/-- The counter the specification describes: one plus the maximum numeric
suffix among the IDs that match the pattern, 1 when there is none. -/
def specNextId (books : List Book) : Int :=
  ((((books.map Book.id).filter matchesPattern).map patternNumber).foldl max 0 : Nat) + 1

/-- A text begins with an integer as `stoi` reads one: optional white space, an
optional sign, then a digit. -/
def hasLeadingInteger (s : Str) : Bool :=
  match s.dropWhile isspace with
  | [] => false
  | c :: r =>
    if c = '-' ∨ c = '+' then
      match r with
      | [] => false
      | d :: _ => d.isDigit
    else c.isDigit

/-! ## History codec and history file -/

namespace HistoryEntry

/-- The value-initialised `HistoryEntry()`. -/
def empty : HistoryEntry := ⟨[], [], [], [], []⟩

/-- The method `HistoryEntry::serialize`. -/
def serialize (h : HistoryEntry) : Str :=
  h.timestamp ++ ['|'] ++ h.action ++ ['|'] ++ Book.esc h.bookID ++ ['|'] ++ Book.esc h.title
    ++ ['|'] ++ Book.esc h.byWho

/-- The method `HistoryEntry::deserialize`. -/
def deserialize (line : Str) : HistoryEntry :=
  match getlineAll '|' line with
  | p0 :: p1 :: p2 :: p3 :: p4 :: _ => ⟨p0, p1, p2, p3, p4⟩
  | _ => HistoryEntry.empty

/-- The entry the round trip is expected to give: every `'|'` of `bookID`,
`title` and `byWho` replaced by `'/'`. -/
def canonical (h : HistoryEntry) : HistoryEntry :=
  { h with bookID := Book.esc h.bookID, title := Book.esc h.title, byWho := Book.esc h.byWho }

end HistoryEntry

/-- The loop of `Library::loadHistoryFromFile` over the lines already read. -/
def loadHistoryLines : List Str → List HistoryEntry
  | [] => []
  | line :: rest =>
    if (trim line).isEmpty then loadHistoryLines rest
    else
      let h := HistoryEntry.deserialize line
      if h.timestamp.isEmpty then loadHistoryLines rest else h :: loadHistoryLines rest

/-- The method `Library::loadHistoryFromFile` on the text of `history.txt`. -/
def loadHistoryFromFile (file : Str) : List HistoryEntry :=
  loadHistoryLines (getlineAll '\n' file)

/-- The method `Library::appendHistoryToFile`: the text of `history.txt` after
the call, given the text before it. -/
def appendHistoryToFile (file : Str) (h : HistoryEntry) : Str :=
  file ++ (h.serialize ++ ['\n'])

/-- A text `nowStr()` can return: not empty, made of digits, `'-'`, `':'` and
blanks (the format is `%Y-%m-%d %H:%M:%S`). -/
def IsNowStr (ts : Str) : Prop :=
  ts ≠ [] ∧ (∀ c ∈ ts, c.isDigit = true ∨ c = '-' ∨ c = ':' ∨ c = ' ') ∧
    ∃ c ∈ ts, c.isDigit = true

/-! ## Queries -/

/-- The method `Library::searchIndicesInteractive`: `option` is the menu choice,
`y` the year typed for choice 3, `kw` the keyword typed for the choices 1, 2
and 4. -/
def searchIndicesInteractive (books : List Book) (option y : Int) (kw : Str) : List Nat :=
  if option = 3 then
    (List.range books.length).filter (fun i => (bookAt books i).year == y)
  else if option = 1 ∨ option = 2 ∨ option = 4 then
    let kw := toLower (trim kw)
    (List.range books.length).filter (fun i =>
      let t := toLower (bookAt books i).title
      let a := toLower (bookAt books i).author
      if option = 1 ∧ contains t kw = true then true
      else if option = 2 ∧ contains a kw = true then true
      else if option = 4 ∧ (contains t kw = true ∨ contains a kw = true) then true
      else false)
  else []

/-- The comparison `a < b` of two `std::string`s: lexicographic on the
character codes, a proper prefix first. -/
def strLt : Str → Str → Bool
  | [], [] => false
  | [], _ :: _ => true
  | _ :: _, [] => false
  | a :: as, b :: bs => decide (a.toNat < b.toNat) || (a.toNat == b.toNat && strLt as bs)

/-- One insertion of the sort below: `x` goes behind the elements that are
smaller than it. -/
def insertSorted (comp : Book → Book → Bool) (x : Book) : List Book → List Book
  | [] => [x]
  | y :: ys => if comp y x then y :: insertSorted comp x ys else x :: y :: ys

/-- The call `std::sort(copy.begin(), copy.end(), comp)`. The standard leaves
the order of elements that compare equal open; this is insertion sort, which
keeps them in their order. -/
def stdSort (comp : Book → Book → Bool) : List Book → List Book
  | [] => []
  | x :: xs => insertSorted comp x (stdSort comp xs)

/-- The comparator of the title sort. -/
def compTitle (a b : Book) : Bool := strLt (toLower a.title) (toLower b.title)

/-- The comparator of the year sort. -/
def compYear (a b : Book) : Bool := decide (a.year < b.year)

/-- The comparator of the availability sort: `(int)a.isBorrowed < (int)b.isBorrowed`. -/
def compAvailability (a b : Book) : Bool := !a.isBorrowed && b.isBorrowed

/-- The method `Library::displayAllInteractive`: the books in the order they are
printed; `opt` is the menu choice. -/
def displayAllInteractive (books : List Book) (opt : Int) : List Book :=
  if books.isEmpty then []
  else if opt = 1 then stdSort compTitle books
  else if opt = 2 then stdSort compYear books
  else if opt = 3 then stdSort compAvailability books
  else books

/-- The method `Library::showHistoryInteractive`: the entries it prints, in the
order it prints them; `n` is the number typed. -/
def showHistoryInteractive (history : List HistoryEntry) (n : Int) : List HistoryEntry :=
  if history.isEmpty then []
  else
    let n1 : Int := if n ≤ 0 then (history.length : Int) else n
    let start : Int := max 0 ((history.length : Int) - n1)
    history.drop start.toNat

/-- A request of any kind: one that may change the library, or one of the three
queries. -/
inductive Request where
  | change (op : Op)
  | search (option y : Int) (kw : Str)
  | list (opt : Int)
  | recent (n : Int)
  deriving DecidableEq, Repr

/-- The library after a request of any kind. The methods behind the three
queries assign to no data member. -/
def perform (lib : Library) : Request → Library
  | Request.change op => step lib op
  | Request.search _ _ _ => lib
  | Request.list _ => lib
  | Request.recent _ => lib

/-- A request is a borrow or a return that succeeds. -/
def lendingSucceeds (lib : Library) : Request → Bool
  | Request.change (Op.borrow q id2 n now) =>
    decide ((borrowInteractive lib q id2 n now).1 = Outcome.done)
  | Request.change (Op.giveBack id n now) =>
    decide ((returnInteractive lib id n now).1 = Outcome.done)
  | _ => false

/-! ## The search of the specification -/

/-- The four modes of a search request. -/
inductive SearchMode where
  | title
  | author
  | year
  | either
  deriving DecidableEq, Repr

/-- The menu choice that stands for a mode. -/
def SearchMode.option : SearchMode → Int
  | SearchMode.title => 1
  | SearchMode.author => 2
  | SearchMode.year => 3
  | SearchMode.either => 4

/-- A record matches a request with the keyword `key` already prepared: in Year
mode its year equals the value, in Title mode its lowercased title contains the
keyword, in Author mode its lowercased author does, in Either mode one of the
two does. -/
def recordMatches (mode : SearchMode) (y : Int) (key : Str) (b : Book) : Prop :=
  match mode with
  | SearchMode.year => b.year = y
  | SearchMode.title => key <:+: toLower b.title
  | SearchMode.author => key <:+: toLower b.author
  | SearchMode.either => key <:+: toLower b.title ∨ key <:+: toLower b.author

/-! ## Sample data -/

/-- An available book as `addBookInteractive` creates it. -/
def sampleAvailable : Book :=
  ⟨['B', 'K', '0', '0', '1'], ['D', 'u', 'n', 'e'], ['H', 'e', 'r', 'b', 'e', 'r', 't'], 1965, false, []⟩

/-- A borrowed book. -/
def sampleBorrowed : Book :=
  ⟨['B', 'K', '0', '0', '2'], ['E', 'm', 'm', 'a'], ['A', 'u', 's', 't', 'e', 'n'], 1815, true, ['A', 'n', 'n']⟩

/-- A line of `books.txt` with six fields whose year field is `abc`. -/
def badYearLine : Str :=
  ['B', 'K', '0', '0', '1', '|', 'D', 'u', 'n', 'e', '|', 'H', 'e', 'r', 'b', 'e', 'r', 't', '|',
    'a', 'b', 'c', '|', '0', '|', 'B', 'o', 'b']

/-- A catalog with one available and one borrowed book, the counter after them. -/
def sampleLibrary : Library := ⟨[sampleAvailable, sampleBorrowed], [], 3⟩

/-- The characters of `"t1"`, standing for a time stamp. -/
def sampleNow : Str := ['t', '1']

/-- A short session: add a book, borrow `BK001`, give `BK002` back, delete `BK001`. -/
def sampleOps : List Op :=
  [Op.add ['I', 't'] ['K', 'i', 'n', 'g'] 1986,
    Op.borrow ['B', 'K', '0', '0', '1'] [] ['B', 'o', 'b'] sampleNow,
    Op.giveBack ['B', 'K', '0', '0', '2'] ['a', 'n', 'n'] sampleNow,
    Op.delete ['B', 'K', '0', '0', '1'] 'y']

/-- The text of a `books.txt` whose only record is borrowed by `" Bob"`, written
with a blank after the last delimiter. -/
def paddedBorrowerFile : Str :=
  ['B', 'K', '0', '0', '1', '|', 'D', 'u', 'n', 'e', '|', 'H', 'e', 'r', 'b', 'e', 'r', 't', '|',
    '1', '9', '6', '5', '|', '1', '|', ' ', 'B', 'o', 'b', '\n']

/-- The library the constructor builds from `paddedBorrowerFile`. -/
def paddedBorrowerLibrary : Library :=
  ⟨[⟨['B', 'K', '0', '0', '1'], ['D', 'u', 'n', 'e'], ['H', 'e', 'r', 'b', 'e', 'r', 't'], 1965,
      true, [' ', 'B', 'o', 'b']⟩], [], 2⟩

/-- The text of a `books.txt` with two records whose borrower field is one blank. -/
def blankBorrowerFile : Str :=
  ['B', 'K', '0', '0', '1', '|', 'A', '|', 'B', '|', '1', '|', '1', '|', ' ', '\n',
    'B', 'K', '0', '0', '2', '|', 'C', '|', 'D', '|', '2', '|', '1', '|', ' ', '\n']

/-- The library built from `blankBorrowerFile` after one book has been added. -/
def blankBorrowerLibrary : Library :=
  ⟨[⟨['B', 'K', '0', '0', '1'], ['A'], ['B'], 1, true, [' ']⟩,
      ⟨['B', 'K', '0', '0', '2'], ['C'], ['D'], 2, true, [' ']⟩,
      ⟨['B', 'K', '0', '0', '3'], ['E'], ['F'], 3, false, []⟩], [], 4⟩

/-- A catalog in which Ann holds two books and a third book is available. -/
def limitLibrary : Library :=
  ⟨[⟨['B', 'K', '0', '0', '1'], ['A'], ['B'], 1, true, ['A', 'n', 'n']⟩,
      ⟨['B', 'K', '0', '0', '2'], ['C'], ['D'], 2, true, ['a', 'n', 'n']⟩,
      ⟨['B', 'K', '0', '0', '3'], ['E'], ['F'], 3, false, []⟩], [], 4⟩

/-- A book with the given ID and nothing else of interest. -/
def bookWithId (id : Str) : Book := ⟨id, ['T'], ['A'], 2000, true, ['A', 'n', 'n']⟩

/-- A loaded catalog whose IDs are `BK2147483647` and `BK-2147483648`. -/
def overflowLibrary : Library :=
  ⟨[bookWithId ['B', 'K', '2', '1', '4', '7', '4', '8', '3', '6', '4', '7'],
      bookWithId ['B', 'K', '-', '2', '1', '4', '7', '4', '8', '3', '6', '4', '8']], [], 1⟩

/-- A loaded catalog whose only ID is `BK2147483646`. -/
def nearOverflowLibrary : Library :=
  ⟨[bookWithId ['B', 'K', '2', '1', '4', '7', '4', '8', '3', '6', '4', '6']], [], 1⟩

/-- A loaded catalog whose only ID is `BK007x`. -/
def trailingLetterLibrary : Library := ⟨[bookWithId ['B', 'K', '0', '0', '7', 'x']], [], 1⟩

/-- A loaded catalog with the IDs `BK007`, `BK12`, `XY123` and `BKabc`. -/
def mixedIdLibrary : Library :=
  ⟨[bookWithId ['B', 'K', '0', '0', '7'], bookWithId ['B', 'K', '1', '2'],
      bookWithId ['X', 'Y', '1', '2', '3'], bookWithId ['B', 'K', 'a', 'b', 'c']], [], 1⟩

/-- An add, the deletion of the book just added, and another add. -/
def addDeleteAdd : List Op :=
  [Op.add ['E'] ['F'] 3, Op.delete ['B', 'K', '0', '0', '3'] 'y', Op.add ['G'] ['H'] 4]

/-- Two `add` requests. -/
def twoAdds : List Op := [Op.add ['E'] ['F'] 3, Op.add ['G'] ['H'] 4]

/-- The title `" Dune "`, typed with a blank on either side. -/
def paddedTitle : Str := [' ', 'D', 'u', 'n', 'e', ' ']

/-- The library of a first run: no books, no history, counter 1. -/
def freshLibrary : Library := ⟨[], [], 1⟩

/-- The keyword `"dune "`, typed with a blank behind it. -/
def trailingBlankKeyword : Str := ['d', 'u', 'n', 'e', ' ']

/-- The book `Apple` with the ID `BK001`. -/
def appleBook : Book := ⟨['B', 'K', '0', '0', '1'], ['A', 'p', 'p', 'l', 'e'], ['A'], 2001, false, []⟩

/-- The book `Banana` with the ID `BK002`. -/
def bananaBook : Book :=
  ⟨['B', 'K', '0', '0', '2'], ['B', 'a', 'n', 'a', 'n', 'a'], ['B'], 1999, true, ['A', 'n', 'n']⟩

/-- Three history entries with the time stamps `1`, `2` and `3`. -/
def sampleHistory : List HistoryEntry :=
  [⟨['1'], BORROW, ['B', 'K', '0', '0', '1'], ['A'], ['A', 'n', 'n']⟩,
    ⟨['2'], RETURN, ['B', 'K', '0', '0', '1'], ['A'], ['A', 'n', 'n']⟩,
    ⟨['3'], BORROW, ['B', 'K', '0', '0', '2'], ['B'], ['B', 'o', 'b']⟩]

/-- The time stamp `2025-12-11 22:00:00`. -/
def sampleTimestamp : Str :=
  ['2', '0', '2', '5', '-', '1', '2', '-', '1', '1', ' ', '2', '2', ':', '0', '0', ':', '0', '0']

/-- The entry logged when Bob borrows the book `a|b` with the ID `BK001`. -/
def sampleEntry : HistoryEntry :=
  ⟨sampleTimestamp, BORROW, ['B', 'K', '0', '0', '1'], ['a', '|', 'b'], ['B', 'o', 'b']⟩

/-- A name made of one blank. -/
def blankName : Str := [' ']

/-- A line of `books.txt` with three fields. -/
def shortBookLine : Str :=
  ['B', 'K', '0', '0', '1', '|', 'D', 'u', 'n', 'e', '|', 'H', 'e', 'r', 'b', 'e', 'r', 't']

/-- A line of `history.txt` with two fields. -/
def shortHistoryLine : Str := sampleTimestamp ++ ['|'] ++ BORROW

/-- A catalog with the available books `Dune` (`BK001`) and `It` (`BK003`). -/
def fallbackLibrary : Library :=
  ⟨[sampleAvailable, ⟨['B', 'K', '0', '0', '3'], ['I', 't'], ['K', 'i', 'n', 'g'], 1986, false, []⟩],
    [], 4⟩

/-- The title fragment `dun`. -/
def dunFragment : Str := ['d', 'u', 'n']

/-! ## The borrower invariant -/

/-- The invariant of the data model: the borrower is non-empty exactly when the
book is borrowed. -/
def BorrowerInv (lib : Library) : Prop :=
  ∀ b ∈ lib.books, (b.borrower ≠ [] ↔ b.isBorrowed = true)

/-! ## Auxiliary notions -/

/-- Removal of trailing blanks. -/
def rtrim (s : Str) : Str :=
  match findLastNotOf s with
  | none => []
  | some stop => s.take (stop + 1)

/-- No book of the catalog carries an ID the counter can still produce. -/
def FreshFrom (ids : List Str) (next : Int) : Prop :=
  ∀ k : Int, next ≤ k → k ≤ INT_MAX → formatId k ∉ ids

/-- The test of the loop of `countBorrowedByUser`: the book is borrowed and its
borrower, trimmed and lowercased, is the trimmed and lowercased name. -/
def heldBy (name : Str) (b : Book) : Bool :=
  b.isBorrowed && toLower (trim b.borrower) == toLower (trim name)

/-- The lending limit holds: no name has more than `borrowLimitPerUser` borrowed
books. -/
def LimitInv (lib : Library) : Prop :=
  ∀ name : Str, countBorrowedByUser lib.books name ≤ borrowLimitPerUser

/-! # Theorems -/

/-! ## Pointers into the catalog -/

theorem findById_lt {bs : List Book} {id : Str} {i : Nat} (h : findById bs id = some i) :
    i < bs.length := by
  induction bs generalizing i with
  | nil => simp [findById] at h
  | cons b bs ih =>
    simp only [findById] at h
    split at h
    · cases h; simp
    · cases hf : findById bs id with
      | none => simp [hf] at h
      | some j =>
        simp [hf] at h
        subst h
        simpa using ih hf

theorem findById_id {bs : List Book} {id : Str} {i : Nat} (h : findById bs id = some i) :
    (bookAt bs i).id = id := by
  induction bs generalizing i with
  | nil => simp [findById] at h
  | cons b bs ih =>
    simp only [findById] at h
    split at h
    · cases h; simpa [bookAt]
    · cases hf : findById bs id with
      | none => simp [hf] at h
      | some j =>
        simp [hf] at h
        subst h
        simpa [bookAt] using ih hf

theorem bookAt_mem {bs : List Book} {i : Nat} (h : i < bs.length) : bookAt bs i ∈ bs := by
  induction bs generalizing i with
  | nil => simp at h
  | cons b bs ih =>
    cases i with
    | zero => simp [bookAt]
    | succ j =>
      have := ih (i := j) (by simpa using h)
      simp [bookAt] at this ⊢
      exact Or.inr this

theorem findById_modifyAt (f : Book → Book) (hf : ∀ b, (f b).id = b.id) (bs : List Book)
    (i : Nat) (id : Str) : findById (modifyAt f bs i) id = findById bs id := by
  induction bs generalizing i with
  | nil => simp [modifyAt]
  | cons b bs ih =>
    cases i with
    | zero => simp [modifyAt, findById, hf]
    | succ j => simp [modifyAt, findById, ih]

theorem bookAt_modifyAt_self {f : Book → Book} {bs : List Book} {i : Nat} (h : i < bs.length) :
    bookAt (modifyAt f bs i) i = f (bookAt bs i) := by
  induction bs generalizing i with
  | nil => simp at h
  | cons b bs ih =>
    cases i with
    | zero => simp [modifyAt, bookAt]
    | succ j =>
      have := ih (i := j) (by simpa using h)
      simpa [modifyAt, bookAt] using this

theorem mem_modifyAt {f : Book → Book} {bs : List Book} {i : Nat} {x : Book}
    (h : x ∈ modifyAt f bs i) : x ∈ bs ∨ ∃ b ∈ bs, x = f b := by
  induction bs generalizing i with
  | nil => simp [modifyAt] at h
  | cons b bs ih =>
    cases i with
    | zero =>
      simp only [modifyAt, List.mem_cons] at h
      rcases h with h | h
      · exact Or.inr ⟨b, by simp, h⟩
      · exact Or.inl (by simp [h])
    | succ j =>
      simp only [modifyAt, List.mem_cons] at h
      rcases h with h | h
      · exact Or.inl (by simp [h])
      · rcases ih h with h1 | ⟨b0, hb0, hx⟩
        · exact Or.inl (by simp [h1])
        · exact Or.inr ⟨b0, by simp [hb0], hx⟩

theorem map_id_modifyAt (f : Book → Book) (hf : ∀ b, (f b).id = b.id) (bs : List Book) (i : Nat) :
    (modifyAt f bs i).map Book.id = bs.map Book.id := by
  induction bs generalizing i with
  | nil => simp [modifyAt]
  | cons b bs ih =>
    cases i with
    | zero => simp [modifyAt, hf]
    | succ j => simp [modifyAt, ih]

/-! ## The borrower invariant is kept -/

theorem BorrowerInv_add (lib : Library) (t a : Str) (y : Int) (h : BorrowerInv lib) :
    BorrowerInv (addBookInteractive lib t a y).2 := by
  intro b hb
  simp only [addBookInteractive, generateNextId, List.mem_append, List.mem_singleton] at hb
  rcases hb with hb | hb
  · exact h b hb
  · subst hb; simp

theorem BorrowerInv_update (lib : Library) (id t a : Str) (y : Int) (h : BorrowerInv lib) :
    BorrowerInv (updateBookInteractive lib id t a y).2 := by
  unfold updateBookInteractive
  split
  · exact h
  · intro b hb
    rcases mem_modifyAt hb with hb | ⟨b0, hb0, rfl⟩
    · exact h b hb
    · have := h b0 hb0
      dsimp only
      split_ifs <;> simpa using this

theorem BorrowerInv_delete (lib : Library) (id : Str) (c : Char) (h : BorrowerInv lib) :
    BorrowerInv (deleteBookInteractive lib id c).2 := by
  unfold deleteBookInteractive
  split
  · exact h
  · split_ifs
    · intro b hb
      exact h b (List.mem_of_mem_eraseIdx hb)
    · exact h

theorem BorrowerInv_borrow (lib : Library) (q id2 n now : Str) (h : BorrowerInv lib) :
    BorrowerInv (borrowInteractive lib q id2 n now).2 := by
  unfold borrowInteractive
  split
  · exact h
  · dsimp only
    split_ifs with h1 h2 h3
    · exact h
    · exact h
    · exact h
    · intro b hb
      rcases mem_modifyAt hb with hb | ⟨b0, _, rfl⟩
      · exact h b hb
      · simpa [markBorrowed] using h2

theorem BorrowerInv_return (lib : Library) (id n now : Str) (h : BorrowerInv lib) :
    BorrowerInv (returnInteractive lib id n now).2 := by
  unfold returnInteractive
  split
  · exact h
  · dsimp only
    split_ifs with h1 h2
    · exact h
    · exact h
    · intro b hb
      rcases mem_modifyAt hb with hb | ⟨b0, _, rfl⟩
      · exact h b hb
      · simp [markReturned]

theorem BorrowerInv_step (lib : Library) (op : Op) (h : BorrowerInv lib) :
    BorrowerInv (step lib op) := by
  cases op with
  | add t a y => exact BorrowerInv_add lib t a y h
  | update id t a y => exact BorrowerInv_update lib id t a y h
  | delete id c => exact BorrowerInv_delete lib id c h
  | borrow q id2 n now => exact BorrowerInv_borrow lib q id2 n now h
  | giveBack id n now => exact BorrowerInv_return lib id n now h

theorem BorrowerInv_run (lib : Library) (ops : List Op) (h : BorrowerInv lib) :
    BorrowerInv (run lib ops) := by
  induction ops generalizing lib with
  | nil => exact h
  | cons op ops ih => exact ih (step lib op) (BorrowerInv_step lib op h)

/-! ## The second borrow of a borrowed book -/

theorem length_modifyAt (f : Book → Book) (bs : List Book) (i : Nat) :
    (modifyAt f bs i).length = bs.length := by
  induction bs generalizing i with
  | nil => simp [modifyAt]
  | cons b bs ih => cases i <;> simp [modifyAt, ih]

theorem bookAt_modifyAt_proj {α : Type} (g : Book → α) {f : Book → Book}
    (hf : ∀ b, g (f b) = g b) (bs : List Book) (i j : Nat) :
    g (bookAt (modifyAt f bs i) j) = g (bookAt bs j) := by
  induction bs generalizing i j with
  | nil => simp [modifyAt]
  | cons b bs ih =>
    cases i with
    | zero => cases j <;> simp [modifyAt, bookAt, hf]
    | succ i =>
      cases j with
      | zero => simp [modifyAt, bookAt]
      | succ j => simpa [modifyAt, bookAt] using ih i j

theorem titleMatches_modifyAt (f : Book → Book) (hf : ∀ b, (f b).title = b.title)
    (bs : List Book) (i : Nat) (q : Str) :
    titleMatches (modifyAt f bs i) q = titleMatches bs q := by
  unfold titleMatches
  rw [length_modifyAt]
  congr 1
  funext j
  rw [bookAt_modifyAt_proj Book.title hf]

theorem resolveBorrow_modifyAt (f : Book → Book) (hid : ∀ b, (f b).id = b.id)
    (ht : ∀ b, (f b).title = b.title) (bs : List Book) (i : Nat) (q id2 : Str) :
    resolveBorrow (modifyAt f bs i) q id2 = resolveBorrow bs q id2 := by
  unfold resolveBorrow
  simp only [findById_modifyAt f hid, titleMatches_modifyAt f ht]

theorem resolveBorrow_lt {bs : List Book} {q id2 : Str} {i : Nat}
    (h : resolveBorrow bs q id2 = Except.ok i) : i < bs.length := by
  unfold resolveBorrow at h
  split at h
  · rename_i j hj
    cases h
    exact findById_lt hj
  · split_ifs at h
    split at h
    · rename_i j hj
      cases h
      exact findById_lt hj
    · cases h

/-- What a successful borrow does, read off the code of `borrowInteractive`. -/
theorem borrow_done {lib : Library} {q id2 name now : Str}
    (h : (borrowInteractive lib q id2 name now).1 = Outcome.done) :
    ∃ i, resolveBorrow lib.books (trim q) id2 = Except.ok i ∧ i < lib.books.length ∧
      (bookAt lib.books i).isBorrowed = false ∧ trim name ≠ [] ∧
      countBorrowedByUser lib.books (trim name) < borrowLimitPerUser ∧
      (borrowInteractive lib q id2 name now).2 =
        { lib with
          books := modifyAt (markBorrowed (trim name)) lib.books i
          history := lib.history ++
            [⟨now, BORROW, (bookAt lib.books i).id, (bookAt lib.books i).title, trim name⟩] } := by
  unfold borrowInteractive at h ⊢
  cases hr : resolveBorrow lib.books (trim q) id2 with
  | error e =>
    rw [hr] at h
    unfold resolveBorrow at hr
    split at hr
    · cases hr
    · split_ifs at hr
      · cases hr; simp at h
      · split at hr
        · cases hr
        · cases hr; simp at h
  | ok i =>
    rw [hr] at h
    refine ⟨i, rfl, resolveBorrow_lt hr, ?_⟩
    dsimp only at h ⊢
    split_ifs at h ⊢ with h1 h2 h3
    exact ⟨by simpa using h1, by simpa using h2, by omega, rfl⟩

/-! ## Facts about `trim` and `toLower` -/

theorem findLastNotOf_lt {s : Str} {i : Nat} (h : findLastNotOf s = some i) : i < s.length := by
  induction s generalizing i with
  | nil => simp [findLastNotOf] at h
  | cons c cs ih =>
    simp only [findLastNotOf] at h
    cases hl : findLastNotOf cs with
    | some j =>
      rw [hl] at h
      cases h
      simpa using ih hl
    | none =>
      rw [hl] at h
      dsimp only at h
      split_ifs at h
      cases h
      simp

theorem findFirst_none_findLast {s : Str} (h : findFirstNotOf s = none) :
    findLastNotOf s = none := by
  induction s with
  | nil => rfl
  | cons c cs ih =>
    simp only [findFirstNotOf] at h
    split_ifs at h with hc
    cases hf : findFirstNotOf cs with
    | some j => simp [hf] at h
    | none => simp [findLastNotOf, ih hf, hc]

theorem rtrim_nil : rtrim [] = [] := rfl

theorem rtrim_cons (c : Char) (cs : Str) :
    rtrim (c :: cs) =
      if rtrim cs = [] then (if isTrimChar c then [] else [c]) else c :: rtrim cs := by
  unfold rtrim
  simp only [findLastNotOf]
  cases hl : findLastNotOf cs with
  | some j =>
    have := findLastNotOf_lt hl
    cases cs with
    | nil => simp at this
    | cons d ds => simp
  | none =>
    dsimp only
    by_cases hc : isTrimChar c = true <;> simp [hc]

theorem trim_nil : trim [] = [] := rfl

theorem trim_cons (c : Char) (cs : Str) :
    trim (c :: cs) = if isTrimChar c then trim cs else rtrim (c :: cs) := by
  by_cases hc : isTrimChar c = true
  · simp only [hc, if_true]
    unfold trim
    simp only [findFirstNotOf, findLastNotOf, hc, if_true]
    cases hf : findFirstNotOf cs with
    | none => simp
    | some start =>
      cases hl : findLastNotOf cs with
      | none => simp
      | some stop =>
        simp only [Option.map_some', substr, List.drop_succ_cons]
        congr 1
        omega
  · simp only [hc]
    unfold trim rtrim
    simp only [findFirstNotOf, hc]
    cases hl : findLastNotOf (c :: cs) with
    | none => simp
    | some stop => simp [substr]

theorem rtrim_eq_nil_iff (s : Str) : rtrim s = [] ↔ ∀ c ∈ s, isTrimChar c = true := by
  induction s with
  | nil => simp [rtrim_nil]
  | cons c cs ih =>
    rw [rtrim_cons]
    by_cases h : rtrim cs = []
    · simp only [h, if_true]
      by_cases hc : isTrimChar c = true
      · simpa [hc] using ih.mp h
      · simp [hc]
    · simp only [h, if_false]
      simp only [List.mem_cons, forall_eq_or_imp, false_iff, not_and, reduceCtorEq]
      intro _
      exact fun hall => h (ih.mpr hall)

theorem rtrim_rtrim (s : Str) : rtrim (rtrim s) = rtrim s := by
  induction s with
  | nil => rfl
  | cons c cs ih =>
    rw [rtrim_cons]
    by_cases h : rtrim cs = []
    · simp only [h, if_true]
      by_cases hc : isTrimChar c = true
      · simp [hc, rtrim_nil]
      · simp [hc, rtrim_cons, rtrim_nil]
    · simp only [h, if_false]
      rw [rtrim_cons, ih]
      simp [h]

theorem trim_rtrim_cons {c : Char} (cs : Str) (hc : isTrimChar c = false) :
    trim (rtrim (c :: cs)) = rtrim (c :: cs) := by
  have hhead : ∃ t, rtrim (c :: cs) = c :: t := by
    rw [rtrim_cons]
    by_cases h : rtrim cs = []
    · exact ⟨[], by simp [h, hc]⟩
    · exact ⟨rtrim cs, by simp [h]⟩
  obtain ⟨t, ht⟩ := hhead
  have h2 := rtrim_rtrim (c :: cs)
  rw [ht] at h2 ⊢
  rw [trim_cons, hc]
  simpa using h2

theorem trim_trim (s : Str) : trim (trim s) = trim s := by
  induction s with
  | nil => rfl
  | cons c cs ih =>
    rw [trim_cons]
    by_cases hc : isTrimChar c = true
    · simp only [hc, if_true]; exact ih
    · simp only [hc]
      simp only [Bool.not_eq_true] at hc
      simpa using trim_rtrim_cons cs hc

theorem isTrimChar_tolower (c : Char) : isTrimChar (tolower c) = isTrimChar c := by
  unfold tolower
  split_ifs with h
  · obtain ⟨h1, h2⟩ := h
    have hc : isTrimChar c = false := by
      unfold isTrimChar
      have : ∀ d : Char, d.toNat < 65 → c ≠ d := fun d hd hcd => by rw [hcd] at h1; omega
      simp [this ' ' (by decide), this '\t' (by decide), this '\r' (by decide),
        this '\n' (by decide)]
    rw [hc]
    generalize hn : c.toNat = n at h1 h2
    interval_cases n <;> decide
  · rfl

theorem rtrim_toLower (s : Str) : rtrim (toLower s) = toLower (rtrim s) := by
  induction s with
  | nil => rfl
  | cons c cs ih =>
    have hnil : rtrim (toLower cs) = [] ↔ rtrim cs = [] := by
      rw [ih]; simp [toLower]
    simp only [toLower, List.map_cons] at ih hnil ⊢
    rw [rtrim_cons, rtrim_cons, isTrimChar_tolower, ih]
    by_cases h : rtrim cs = []
    · simp only [h, List.map_nil, if_true]
      split_ifs <;> simp
    · have h' : ¬ List.map tolower (rtrim cs) = [] := by simpa using h
      simp [h, h']

theorem trim_toLower (s : Str) : trim (toLower s) = toLower (trim s) := by
  induction s with
  | nil => rfl
  | cons c cs ih =>
    have hr := rtrim_toLower (c :: cs)
    simp only [toLower, List.map_cons] at ih hr ⊢
    rw [trim_cons, trim_cons, isTrimChar_tolower]
    split_ifs
    · exact ih
    · exact hr

theorem toLower_eq_nil {s : Str} : toLower s = [] ↔ s = [] := by
  simp [toLower]

/-! ## Counting borrowed books -/

theorem countP_modifyAt (p : Book → Bool) (f : Book → Book) (bs : List Book) (i : Nat)
    (hi : i < bs.length) :
    (modifyAt f bs i).countP p + (if p (bookAt bs i) then 1 else 0) =
      bs.countP p + (if p (f (bookAt bs i)) then 1 else 0) := by
  induction bs generalizing i with
  | nil => simp at hi
  | cons b bs ih =>
    cases i with
    | zero =>
      simp only [modifyAt, bookAt, List.getD_cons_zero, List.countP_cons]
      omega
    | succ j =>
      have := ih j (by simpa using hi)
      simp only [modifyAt, bookAt, List.getD_cons_succ, List.countP_cons] at this ⊢
      omega

theorem countBorrowedByUser_congr (books : List Book) {n m : Str}
    (h : toLower (trim n) = toLower (trim m)) :
    countBorrowedByUser books n = countBorrowedByUser books m := by
  unfold countBorrowedByUser
  rw [h]

theorem countBorrowedByUser_trim (books : List Book) (n : Str) :
    countBorrowedByUser books (trim n) = countBorrowedByUser books n :=
  countBorrowedByUser_congr books (by rw [trim_trim])

/-- What a successful return does, read off the code of `returnInteractive`. -/
theorem return_done {lib : Library} {id name now : Str}
    (h : (returnInteractive lib id name now).1 = Outcome.done) :
    ∃ i, findById lib.books id = some i ∧ i < lib.books.length ∧
      (bookAt lib.books i).isBorrowed = true ∧
      toLower (trim name) = toLower (bookAt lib.books i).borrower ∧
      (returnInteractive lib id name now).2 =
        { lib with
          books := modifyAt markReturned lib.books i
          history := lib.history ++
            [⟨now, RETURN, (bookAt lib.books i).id, (bookAt lib.books i).title, trim name⟩] } := by
  unfold returnInteractive at h ⊢
  cases hr : findById lib.books id with
  | none => rw [hr] at h; simp at h
  | some i =>
    rw [hr] at h
    refine ⟨i, rfl, findById_lt hr, ?_⟩
    dsimp only at h ⊢
    split_ifs at h ⊢ with h1 h2
    exact ⟨by simpa using h1, by simpa using h2, rfl⟩

theorem count_after_return {lib : Library} {id name now : Str}
    (h : (returnInteractive lib id name now).1 = Outcome.done) :
    countBorrowedByUser (returnInteractive lib id name now).2.books name + 1 =
      countBorrowedByUser lib.books name := by
  obtain ⟨i, _, hi, hb, hn, hs⟩ := return_done h
  rw [hs]
  have hcnt := countP_modifyAt
    (fun b => b.isBorrowed && toLower (trim b.borrower) == toLower (trim name))
    markReturned lib.books i hi
  have hmatch : toLower (trim (bookAt lib.books i).borrower) = toLower (trim name) := by
    rw [← trim_toLower, ← hn, trim_toLower, trim_trim]
  simp only [hb, hmatch, markReturned, Bool.true_and, beq_self_eq_true, if_true,
    Bool.false_and] at hcnt
  unfold countBorrowedByUser
  simpa using hcnt

/-! ## Decimal digits -/

theorem digitChar_isDigit {d : Nat} (h : d < 10) : (Nat.digitChar d).isDigit = true := by
  interval_cases d <;> decide

theorem digitVal_digitChar {d : Nat} (h : d < 10) : digitVal (Nat.digitChar d) = d := by
  interval_cases d <;> decide

theorem toDigitsCore_isDigit (fuel n : Nat) (acc : Str) (hacc : ∀ c ∈ acc, c.isDigit = true) :
    ∀ c ∈ Nat.toDigitsCore 10 fuel n acc, c.isDigit = true := by
  induction fuel generalizing n acc with
  | zero => simpa [Nat.toDigitsCore] using hacc
  | succ f ih =>
    have hd : (Nat.digitChar (n % 10)).isDigit = true := digitChar_isDigit (Nat.mod_lt _ (by decide))
    have hacc' : ∀ c ∈ Nat.digitChar (n % 10) :: acc, c.isDigit = true := by
      intro c hc
      rcases List.mem_cons.mp hc with rfl | hc
      · exact hd
      · exact hacc c hc
    simp only [Nat.toDigitsCore]
    split_ifs
    · exact hacc'
    · exact ih _ _ hacc'

theorem toDigitsCore_ne_nil (fuel n : Nat) (acc : Str) (hacc : acc ≠ []) :
    Nat.toDigitsCore 10 fuel n acc ≠ [] := by
  induction fuel generalizing n acc with
  | zero => simpa [Nat.toDigitsCore] using hacc
  | succ f ih =>
    simp only [Nat.toDigitsCore]
    split_ifs
    · simp
    · exact ih _ _ (by simp)

theorem foldl_digits (a : Nat) (cs : Str) :
    cs.foldl (fun a c => 10 * a + digitVal c) a = a * 10 ^ cs.length + digitsVal cs := by
  unfold digitsVal
  induction cs generalizing a with
  | nil => simp
  | cons c cs ih =>
    simp only [List.foldl_cons, List.length_cons]
    rw [ih, ih (10 * 0 + digitVal c)]
    ring

theorem digitsVal_cons (c : Char) (cs : Str) :
    digitsVal (c :: cs) = digitVal c * 10 ^ cs.length + digitsVal cs := by
  have := foldl_digits (digitVal c) cs
  simpa [digitsVal] using this

theorem digitsVal_append (xs ys : Str) :
    digitsVal (xs ++ ys) = digitsVal xs * 10 ^ ys.length + digitsVal ys := by
  have := foldl_digits (digitsVal xs) ys
  simpa [digitsVal, List.foldl_append] using this

theorem digitsVal_replicate_zero (k : Nat) : digitsVal (List.replicate k '0') = 0 := by
  induction k with
  | zero => rfl
  | succ k ih =>
    rw [List.replicate_succ, digitsVal_cons, ih]
    simp [digitVal]

theorem digitsVal_toDigitsCore (fuel n : Nat) (acc : Str) (h : n < fuel) :
    digitsVal (Nat.toDigitsCore 10 fuel n acc) = n * 10 ^ acc.length + digitsVal acc := by
  induction fuel generalizing n acc with
  | zero => omega
  | succ f ih =>
    simp only [Nat.toDigitsCore]
    have hd := digitVal_digitChar (Nat.mod_lt n (by decide : 10 > 0))
    split_ifs with h0
    · rw [digitsVal_cons, hd]
      have : n % 10 = n := by omega
      rw [this]
    · rw [ih (n / 10) _ (by omega), digitsVal_cons, hd, List.length_cons, pow_succ]
      have hn : n = 10 * (n / 10) + n % 10 := (Nat.div_add_mod n 10).symm
      generalize 10 ^ acc.length = p at *
      generalize n / 10 = q at *
      generalize n % 10 = r at *
      subst hn
      ring

theorem natToStr_isDigit (n : Nat) : ∀ c ∈ natToStr n, c.isDigit = true :=
  toDigitsCore_isDigit _ _ _ (by simp)

theorem natToStr_ne_nil (n : Nat) : natToStr n ≠ [] := by
  unfold natToStr Nat.toDigits
  simp only [Nat.toDigitsCore]
  split_ifs
  · simp
  · exact toDigitsCore_ne_nil _ _ _ (by simp)

theorem digitsVal_natToStr (n : Nat) : digitsVal (natToStr n) = n := by
  unfold natToStr Nat.toDigits
  rw [digitsVal_toDigitsCore _ _ _ (by omega)]
  simp [digitsVal]

/-! ## Facts about `stoi` -/

theorem isDigit_not_special {c : Char} (h : c.isDigit = true) :
    isspace c = false ∧ c ≠ '-' ∧ c ≠ '+' := by
  have h48 : 48 ≤ c.toNat := by
    simp only [Char.isDigit, Bool.and_eq_true, decide_eq_true_eq] at h
    exact h.1
  have hne : ∀ d : Char, d.toNat < 48 → c ≠ d := fun d hd hcd => by rw [hcd] at h48; omega
  refine ⟨?_, hne '-' (by decide), hne '+' (by decide)⟩
  unfold isspace
  simp [hne ' ' (by decide), hne '\t' (by decide), hne '\n' (by decide),
    hne (Char.ofNat 11) (by decide), hne (Char.ofNat 12) (by decide), hne '\r' (by decide)]

theorem stoi_digits {ds : Str} (hne : ds ≠ []) (hd : ∀ c ∈ ds, c.isDigit = true)
    (hr : (digitsVal ds : Int) ≤ INT_MAX) : stoi ds = some (digitsVal ds : Int) := by
  cases ds with
  | nil => exact absurd rfl hne
  | cons c cs =>
    have hc := isDigit_not_special (hd c (by simp))
    have htake : (c :: cs).takeWhile Char.isDigit = c :: cs :=
      List.takeWhile_eq_self_iff.mpr hd
    have hmin : INT_MIN ≤ (digitsVal (c :: cs) : Int) := by
      unfold INT_MIN; omega
    unfold stoi
    simp only [List.dropWhile_cons, hc.1, hc.2.1, hc.2.2, if_false, htake,
      List.isEmpty_cons, Bool.false_eq_true]
    simp [hr, hmin]

theorem stoi_no_leading_integer {s : Str} (h : hasLeadingInteger s = false) : stoi s = none := by
  unfold hasLeadingInteger at h
  unfold stoi
  cases hs : s.dropWhile isspace with
  | nil => simp
  | cons c r =>
    rw [hs] at h
    dsimp only at h ⊢
    by_cases h1 : c = '-'
    · simp only [h1, true_or, if_true] at h ⊢
      cases r with
      | nil => simp
      | cons d r' => simp at h; simp [h]
    · by_cases h2 : c = '+'
      · simp only [h2, or_true, if_true] at h ⊢
        cases r with
        | nil => simp
        | cons d r' => simp at h; simp [h]
      · simp only [h1, h2, or_self, if_false] at h ⊢
        simp [h]

theorem stoi_range {s : Str} {n : Int} (h : stoi s = some n) : INT_MIN ≤ n ∧ n ≤ INT_MAX := by
  unfold stoi at h
  dsimp only at h
  split_ifs at h with h1 h2 h3 h4
  · cases h; exact h3
  · cases h; exact h4

/-! ## Generated IDs -/

theorem wrapInt_of_range {i : Int} (h1 : INT_MIN ≤ i) (h2 : i ≤ INT_MAX) : wrapInt i = i := by
  unfold wrapInt
  unfold INT_MIN at h1
  unfold INT_MAX at h2
  omega

theorem formatId_nonneg {n : Int} (h : 0 ≤ n) :
    formatId n = 'B' :: 'K' :: padLeft 3 '0' (natToStr n.toNat) := by
  unfold formatId intToStr
  have h1 : ¬ n < 0 := by omega
  have h2 : n.natAbs = n.toNat := by omega
  simp [h1, h2]

theorem padded_isDigit (n : Nat) : ∀ c ∈ padLeft 3 '0' (natToStr n), c.isDigit = true := by
  intro c hc
  unfold padLeft at hc
  rcases List.mem_append.mp hc with hc | hc
  · rw [(List.mem_replicate.mp hc).2]; decide
  · exact natToStr_isDigit n c hc

theorem padded_length (n : Nat) : 3 ≤ (padLeft 3 '0' (natToStr n)).length := by
  unfold padLeft
  simp only [List.length_append, List.length_replicate]
  omega

theorem digitsVal_padded (n : Nat) : digitsVal (padLeft 3 '0' (natToStr n)) = n := by
  unfold padLeft
  rw [digitsVal_append, digitsVal_replicate_zero, digitsVal_natToStr]
  simp

theorem idNumber_formatId {n : Int} (h0 : 0 ≤ n) (h1 : n ≤ INT_MAX) :
    idNumber (formatId n) = some n := by
  rw [formatId_nonneg h0]
  unfold idNumber
  simp only [List.drop_succ_cons, List.drop_zero]
  have hne : padLeft 3 '0' (natToStr n.toNat) ≠ [] := by
    intro h
    have := padded_length n.toNat
    rw [h] at this
    simp at this
  have hv : (digitsVal (padLeft 3 '0' (natToStr n.toNat)) : Int) = n := by
    rw [digitsVal_padded]; omega
  rw [stoi_digits hne (padded_isDigit _) (by rw [hv]; exact h1), hv]

theorem formatId_guard {n : Int} (h0 : 0 ≤ n) :
    5 ≤ (formatId n).length ∧ substr (formatId n) 0 2 = ['B', 'K'] := by
  rw [formatId_nonneg h0]
  have := padded_length n.toNat
  constructor
  · simp only [List.length_cons]; omega
  · simp [substr]

theorem formatId_matchesPattern {n : Int} (h0 : 0 ≤ n) : matchesPattern (formatId n) = true := by
  rw [formatId_nonneg h0]
  unfold matchesPattern
  have h1 := padded_length n.toNat
  have h2 := padded_isDigit n.toNat
  simp only [List.take_succ_cons, List.take_zero, beq_self_eq_true, List.drop_succ_cons,
    List.drop_zero, h1, decide_True, Bool.and_self, Bool.true_and, List.all_eq_true]
  exact h2

/-! ## The scan of `recalcNextId` -/

theorem scanStep_ge (m : Int) (b : Book) : m ≤ scanStep m b := by
  unfold scanStep
  split_ifs
  · split
    · split_ifs <;> omega
    · exact le_refl m
  · exact le_refl m

theorem foldl_scanStep_ge (m : Int) (bs : List Book) : m ≤ bs.foldl scanStep m := by
  induction bs generalizing m with
  | nil => exact le_refl m
  | cons b bs ih => exact le_trans (scanStep_ge m b) (ih _)

theorem scanStep_le_max (m : Int) (b : Book) (h : m ≤ INT_MAX) : scanStep m b ≤ INT_MAX := by
  unfold scanStep
  split_ifs
  · split
    · rename_i n hn
      have := (stoi_range hn).2
      split_ifs <;> omega
    · exact h
  · exact h

theorem foldl_scanStep_le_max (m : Int) (bs : List Book) (h : m ≤ INT_MAX) :
    bs.foldl scanStep m ≤ INT_MAX := by
  induction bs generalizing m with
  | nil => exact h
  | cons b bs ih => exact ih _ (scanStep_le_max m b h)

theorem scanMax_nonneg (bs : List Book) : 0 ≤ scanMax bs := foldl_scanStep_ge 0 bs

theorem scanMax_le_max (bs : List Book) : scanMax bs ≤ INT_MAX :=
  foldl_scanStep_le_max 0 bs (by decide)

theorem foldl_scanStep_bound (m : Int) (bs : List Book) {b : Book} (hb : b ∈ bs) {n : Int}
    (hlen : 5 ≤ b.id.length) (hpre : substr b.id 0 2 = ['B', 'K'])
    (hn : stoi (b.id.drop 2) = some n) : n ≤ bs.foldl scanStep m := by
  induction bs generalizing m with
  | nil => simp at hb
  | cons x xs ih =>
    simp only [List.foldl_cons]
    rcases List.mem_cons.mp hb with rfl | hb
    · refine le_trans ?_ (foldl_scanStep_ge _ xs)
      unfold scanStep
      simp only [hlen, hpre, and_self, if_true, hn]
      split_ifs <;> omega
    · exact ih _ hb

theorem formatId_le_scanMax {bs : List Book} {b : Book} (hb : b ∈ bs) {k : Int}
    (h0 : 0 ≤ k) (h1 : k ≤ INT_MAX) (hid : b.id = formatId k) : k ≤ scanMax bs := by
  have hg := formatId_guard h0
  have hn := idNumber_formatId h0 h1
  rw [← hid] at hg hn
  exact foldl_scanStep_bound 0 bs hb hg.1 hg.2 hn

/-! ## Requests and the list of IDs -/

theorem eraseIdx_map_id (bs : List Book) (i : Nat) :
    (bs.eraseIdx i).map Book.id = (bs.map Book.id).eraseIdx i := by
  induction bs generalizing i with
  | nil => simp
  | cons b bs ih => cases i <;> simp [ih]

theorem step_ids_sublist (lib : Library) (op : Op) (h : countAdds [op] = 0) :
    ((step lib op).books.map Book.id).Sublist (lib.books.map Book.id) ∧
      (step lib op).nextIdNumber = lib.nextIdNumber := by
  cases op with
  | add t a y => simp [countAdds] at h
  | update id t a y =>
    simp only [step, updateBookInteractive]
    split
    · exact ⟨List.Sublist.refl _, rfl⟩
    · dsimp only
      rw [map_id_modifyAt _ (by intro b; split_ifs <;> rfl)]
      exact ⟨List.Sublist.refl _, rfl⟩
  | delete id c =>
    simp only [step, deleteBookInteractive]
    split
    · exact ⟨List.Sublist.refl _, rfl⟩
    · split_ifs
      · dsimp only
        rw [eraseIdx_map_id]
        exact ⟨List.eraseIdx_sublist _ _, rfl⟩
      · exact ⟨List.Sublist.refl _, rfl⟩
  | borrow q id2 n now =>
    simp only [step, borrowInteractive]
    split
    · exact ⟨List.Sublist.refl _, rfl⟩
    · split_ifs
      · exact ⟨List.Sublist.refl _, rfl⟩
      · exact ⟨List.Sublist.refl _, rfl⟩
      · exact ⟨List.Sublist.refl _, rfl⟩
      · dsimp only
        rw [map_id_modifyAt (markBorrowed (trim n)) (fun _ => rfl)]
        exact ⟨List.Sublist.refl _, rfl⟩
  | giveBack id n now =>
    simp only [step, returnInteractive]
    split
    · exact ⟨List.Sublist.refl _, rfl⟩
    · split_ifs
      · exact ⟨List.Sublist.refl _, rfl⟩
      · exact ⟨List.Sublist.refl _, rfl⟩
      · dsimp only
        rw [map_id_modifyAt markReturned (fun _ => rfl)]
        exact ⟨List.Sublist.refl _, rfl⟩

theorem countAdds_cons (op : Op) (ops : List Op) :
    countAdds (op :: ops) = countAdds [op] + countAdds ops := by
  cases op <;> simp [countAdds]; omega

theorem formatId_injective {a b : Int} (ha0 : 0 ≤ a) (ha1 : a ≤ INT_MAX) (hb0 : 0 ≤ b)
    (hb1 : b ≤ INT_MAX) (h : formatId a = formatId b) : a = b := by
  have h1 := idNumber_formatId ha0 ha1
  rw [h, idNumber_formatId hb0 hb1] at h1
  exact (Option.some.inj h1).symm

theorem FreshFrom_recalc (lib : Library) :
    FreshFrom (lib.books.map Book.id) (scanMax lib.books + 1) := by
  intro k hk1 hk2 hmem
  obtain ⟨b, hb, hid⟩ := List.mem_map.mp hmem
  have h0 : 0 ≤ k := by have := scanMax_nonneg lib.books; omega
  have := formatId_le_scanMax hb h0 hk2 hid
  omega

theorem nodup_run (ops : List Op) (lib : Library) (hnd : (lib.books.map Book.id).Nodup)
    (h : countAdds ops = 0 ∨
      (0 ≤ lib.nextIdNumber ∧ lib.nextIdNumber + countAdds ops ≤ INT_MAX + 1 ∧
        FreshFrom (lib.books.map Book.id) lib.nextIdNumber)) :
    ((run lib ops).books.map Book.id).Nodup := by
  induction ops generalizing lib with
  | nil => exact hnd
  | cons op ops ih =>
    have hrun : run lib (op :: ops) = run (step lib op) ops := rfl
    rw [hrun]
    by_cases hop : countAdds [op] = 0
    · obtain ⟨hsub, hnext⟩ := step_ids_sublist lib op hop
      refine ih _ (hnd.sublist hsub) ?_
      rw [countAdds_cons, hop, Nat.zero_add] at h
      rcases h with h | ⟨h0, h1, hf⟩
      · exact Or.inl h
      · refine Or.inr ⟨by rw [hnext]; exact h0, by rw [hnext]; exact h1, ?_⟩
        intro k hk1 hk2 hmem
        rw [hnext] at hk1
        exact hf k hk1 hk2 (hsub.subset hmem)
    · cases op with
      | add t a y =>
        rw [countAdds_cons] at h
        have hone : countAdds [Op.add t a y] = 1 := rfl
        rw [hone] at h
        rcases h with h | ⟨h0, h1, hf⟩
        · omega
        · have hmax : lib.nextIdNumber ≤ INT_MAX := by omega
          have hids : (step lib (Op.add t a y)).books.map Book.id =
              lib.books.map Book.id ++ [formatId lib.nextIdNumber] := by
            simp [step, addBookInteractive, generateNextId]
          have hnext : (step lib (Op.add t a y)).nextIdNumber = wrapInt (lib.nextIdNumber + 1) := rfl
          apply ih
          · rw [hids]
            refine List.Nodup.append hnd (List.nodup_singleton _) ?_
            intro x hx hx'
            rw [List.mem_singleton] at hx'
            subst hx'
            exact hf _ (le_refl _) hmax hx
          · by_cases hc : countAdds ops = 0
            · exact Or.inl hc
            · have hlt : lib.nextIdNumber + 1 ≤ INT_MAX := by omega
              have hw : wrapInt (lib.nextIdNumber + 1) = lib.nextIdNumber + 1 :=
                wrapInt_of_range (by unfold INT_MIN; omega) hlt
              rw [hnext, hw, hids]
              refine Or.inr ⟨by omega, by omega, ?_⟩
              intro k hk1 hk2 hmem
              rcases List.mem_append.mp hmem with hmem | hmem
              · exact hf k (by omega) hk2 hmem
              · rw [List.mem_singleton] at hmem
                have := formatId_injective (by omega) hk2 h0 hmax hmem
                omega
      | update id t a y => exact absurd rfl hop
      | delete id c => exact absurd rfl hop
      | borrow q id2 n now => exact absurd rfl hop
      | giveBack id n now => exact absurd rfl hop

theorem generated_numbers (ops : List Op) (lib : Library)
    (h : countAdds ops = 0 ∨
      (0 ≤ lib.nextIdNumber ∧ lib.nextIdNumber + countAdds ops ≤ INT_MAX + 1)) :
    (generatedIds lib ops).map idNumber =
      (List.range (countAdds ops)).map (fun (k : Nat) => some (lib.nextIdNumber + (k : Int))) := by
  induction ops generalizing lib with
  | nil => rfl
  | cons op ops ih =>
    by_cases hop : countAdds [op] = 0
    · have hnext := (step_ids_sublist lib op hop).2
      have hgen : generatedIds lib (op :: ops) = generatedIds (step lib op) ops := by
        cases op with
        | add t a y => simp [countAdds] at hop
        | update id t a y => rfl
        | delete id c => rfl
        | borrow q id2 n now => rfl
        | giveBack id n now => rfl
      rw [hgen, countAdds_cons, hop, Nat.zero_add, ← hnext]
      apply ih
      rw [countAdds_cons, hop, Nat.zero_add] at h
      rw [hnext]
      exact h
    · cases op with
      | add t a y =>
        rw [countAdds_cons] at h ⊢
        have hone : countAdds [Op.add t a y] = 1 := rfl
        rw [hone] at h ⊢
        rcases h with h | ⟨h0, h1⟩
        · omega
        · have hmax : lib.nextIdNumber ≤ INT_MAX := by omega
          have hgen : generatedIds lib (Op.add t a y :: ops) =
              formatId lib.nextIdNumber :: generatedIds (step lib (Op.add t a y)) ops := rfl
          have hnext : (step lib (Op.add t a y)).nextIdNumber = wrapInt (lib.nextIdNumber + 1) := rfl
          rw [hgen, List.map_cons, idNumber_formatId h0 hmax, Nat.add_comm 1,
            List.range_succ_eq_map, List.map_cons, List.map_map]
          congr 1
          · simp
          · by_cases hc : countAdds ops = 0
            · rw [ih _ (Or.inl hc), hc]
              rfl
            · have hlt : lib.nextIdNumber + 1 ≤ INT_MAX := by omega
              have hw : wrapInt (lib.nextIdNumber + 1) = lib.nextIdNumber + 1 :=
                wrapInt_of_range (by unfold INT_MIN; omega) hlt
              rw [ih _ (Or.inr ⟨by rw [hnext, hw]; omega, by rw [hnext, hw]; omega⟩), hnext, hw]
              apply List.map_congr_left
              intro k _
              simp only [Function.comp, Nat.succ_eq_add_one, Nat.cast_add, Nat.cast_one]
              congr 1
              ring
      | update id t a y => exact absurd rfl hop
      | delete id c => exact absurd rfl hop
      | borrow q id2 n now => exact absurd rfl hop
      | giveBack id n now => exact absurd rfl hop

/-! ## The scan against the `BK###` pattern -/

theorem scanStep_of_match (m : Int) (b : Book) (h : matchesPattern b.id = true)
    (hr : (patternNumber b.id : Int) ≤ INT_MAX) :
    scanStep m b = max m (patternNumber b.id : Int) := by
  unfold matchesPattern at h
  simp only [Bool.and_eq_true, beq_iff_eq, decide_eq_true_eq, List.all_eq_true] at h
  obtain ⟨⟨h1, h2⟩, h3⟩ := h
  have hlen : 5 ≤ b.id.length := by
    rw [List.length_drop] at h2; omega
  have hne : b.id.drop 2 ≠ [] := by
    intro h0; rw [h0] at h2; simp at h2
  have hs := stoi_digits hne h3 hr
  unfold scanStep
  simp only [hlen, substr, List.drop_zero, h1, and_self, if_true, hs]
  unfold patternNumber
  split_ifs with hgt
  · exact (max_eq_right (le_of_lt hgt)).symm
  · exact (max_eq_left (not_lt.mp hgt)).symm

theorem scanStep_of_other (m : Int) (b : Book)
    (h : b.id.length < 5 ∨ b.id.take 2 ≠ ['B', 'K'] ∨ hasLeadingInteger (b.id.drop 2) = false) :
    scanStep m b = m := by
  unfold scanStep
  split_ifs with hg
  · obtain ⟨hlen, hpre⟩ := hg
    rcases h with h | h | h
    · omega
    · exact absurd (by simpa [substr] using hpre) h
    · rw [stoi_no_leading_integer h]
  · rfl

theorem foldl_scanStep_spec (bs : List Book) (m : Nat)
    (hsmall : ∀ b ∈ bs, matchesPattern b.id = true → (patternNumber b.id : Int) < INT_MAX)
    (hother : ∀ b ∈ bs, matchesPattern b.id = false →
      b.id.length < 5 ∨ b.id.take 2 ≠ ['B', 'K'] ∨ hasLeadingInteger (b.id.drop 2) = false) :
    bs.foldl scanStep (m : Int) =
      ((((bs.map Book.id).filter matchesPattern).map patternNumber).foldl max m : Nat) := by
  induction bs generalizing m with
  | nil => rfl
  | cons b bs ih =>
    have hs' : ∀ x ∈ bs, matchesPattern x.id = true → (patternNumber x.id : Int) < INT_MAX :=
      fun x hx => hsmall x (List.mem_cons_of_mem _ hx)
    have ho' : ∀ x ∈ bs, matchesPattern x.id = false →
        x.id.length < 5 ∨ x.id.take 2 ≠ ['B', 'K'] ∨ hasLeadingInteger (x.id.drop 2) = false :=
      fun x hx => hother x (List.mem_cons_of_mem _ hx)
    simp only [List.foldl_cons, List.map_cons, List.filter_cons]
    by_cases hm : matchesPattern b.id = true
    · have hlt := hsmall b (List.mem_cons_self _ _) hm
      rw [scanStep_of_match m b hm (le_of_lt hlt)]
      simp only [hm, if_true, List.map_cons, List.foldl_cons]
      rw [← ih (max m (patternNumber b.id)) hs' ho']
      congr 1
      exact (Nat.cast_max m (patternNumber b.id)).symm
    · simp only [Bool.not_eq_true] at hm
      rw [scanStep_of_other m b (hother b (List.mem_cons_self _ _) hm)]
      simp only [hm, Bool.false_eq_true, if_false]
      exact ih m hs' ho'

theorem foldl_max_lt (l : List Nat) (m B : Nat) (hm : m < B) (hl : ∀ x ∈ l, x < B) :
    l.foldl max m < B := by
  induction l generalizing m with
  | nil => exact hm
  | cons x xs ih =>
    simp only [List.foldl_cons]
    exact ih _ (max_lt hm (hl x (List.mem_cons_self _ _)))
      (fun y hy => hl y (List.mem_cons_of_mem _ hy))

/-! ## The `getline` loop -/

/-- The list `getlineAll` is what the loop collects: one `getline`, then the
loop on the unread rest. -/
theorem getlineAll_eq_loop (d : Char) (s : Str) :
    getlineAll d s =
      match getline d s with
      | none => []
      | some (t, r) => t :: getlineAll d r := by
  induction s with
  | nil => rfl
  | cons c cs ih =>
    by_cases hc : c = d
    · simp [getlineAll, getline, hc]
    · simp only [getlineAll, getline, hc, if_false]
      rw [ih]
      cases getline d cs with
      | none => simp [getlineAll]
      | some p => simp

theorem getlineAll_append_delim (d : Char) (t rest : Str) (ht : d ∉ t) :
    getlineAll d (t ++ d :: rest) = t :: getlineAll d rest := by
  induction t with
  | nil => simp [getlineAll]
  | cons c cs ih =>
    have hc : c ≠ d := fun h => ht (by simp [h])
    have hcs : d ∉ cs := fun h => ht (by simp [h])
    have hstep : getlineAll d (c :: (cs ++ d :: rest)) =
        match getlineAll d (cs ++ d :: rest) with
        | [] => [[c]]
        | t :: ts => (c :: t) :: ts := by
      simp only [getlineAll, hc, if_false]
    rw [List.cons_append, hstep, ih hcs]

theorem getlineAll_no_delim (d : Char) (t : Str) (ht : d ∉ t) (hne : t ≠ []) :
    getlineAll d t = [t] := by
  induction t with
  | nil => exact absurd rfl hne
  | cons c cs ih =>
    have hc : c ≠ d := fun h => ht (by simp [h])
    have hcs : d ∉ cs := fun h => ht (by simp [h])
    simp only [getlineAll, hc, if_false]
    cases cs with
    | nil => rfl
    | cons x xs => rw [ih hcs (by simp)]

theorem bar_not_mem_esc (s : Str) : '|' ∉ Book.esc s := by
  unfold Book.esc
  intro h
  obtain ⟨c, _, hc⟩ := List.mem_map.mp h
  split_ifs at hc with h1
  · exact absurd hc (by decide)
  · exact h1 hc

theorem bar_not_mem_intToStr (i : Int) : '|' ∉ intToStr i := by
  have hd : ∀ n : Nat, '|' ∉ natToStr n := fun n h => by
    have := natToStr_isDigit n _ h
    exact absurd this (by decide)
  unfold intToStr
  split_ifs
  · intro h
    rcases List.mem_cons.mp h with h | h
    · exact absurd h (by decide)
    · exact hd _ h
  · exact hd _

theorem stoi_intToStr {i : Int} (h1 : INT_MIN ≤ i) (h2 : i ≤ INT_MAX) :
    stoi (intToStr i) = some i := by
  unfold intToStr
  split_ifs with hneg
  · have hne := natToStr_ne_nil i.natAbs
    have hd := natToStr_isDigit i.natAbs
    have hv := digitsVal_natToStr i.natAbs
    have htake : (natToStr i.natAbs).takeWhile Char.isDigit = natToStr i.natAbs :=
      List.takeWhile_eq_self_iff.mpr hd
    unfold stoi
    have hsp : isspace '-' = false := by decide
    simp only [List.dropWhile_cons, hsp, if_true, htake, Bool.false_eq_true, if_false]
    have hempty : (natToStr i.natAbs).isEmpty = false := by
      cases hs : natToStr i.natAbs with
      | nil => exact absurd hs hne
      | cons _ _ => rfl
    simp only [hempty, Bool.false_eq_true, if_false, hv]
    have hval : -((i.natAbs : Nat) : Int) = i := by omega
    rw [hval]
    simp [h1, h2]
  · have hv := digitsVal_natToStr i.natAbs
    have hval : ((digitsVal (natToStr i.natAbs) : Nat) : Int) = i := by rw [hv]; omega
    rw [stoi_digits (natToStr_ne_nil _) (natToStr_isDigit _) (by rw [hval]; exact h2), hval]

/-- The fields the loop of `Book::deserialize` finds in a serialized book. -/
theorem getlineAll_serialize (b : Book) (hid : '|' ∉ b.id) :
    getlineAll '|' b.serialize =
      [b.id, Book.esc b.title, Book.esc b.author, intToStr b.year,
        (if b.isBorrowed then ['1'] else ['0'])] ++
        (if b.borrower = [] then [] else [Book.esc b.borrower]) := by
  have hflag : '|' ∉ (if b.isBorrowed then ['1'] else ['0']) := by
    split_ifs <;> decide
  have hser : b.serialize = b.id ++ '|' :: (Book.esc b.title ++ '|' :: (Book.esc b.author ++
      '|' :: (intToStr b.year ++ '|' :: ((if b.isBorrowed then ['1'] else ['0']) ++
      '|' :: Book.esc b.borrower)))) := by
    simp [Book.serialize, List.append_assoc]
  rw [hser, getlineAll_append_delim _ _ _ hid, getlineAll_append_delim _ _ _ (bar_not_mem_esc _),
    getlineAll_append_delim _ _ _ (bar_not_mem_esc _),
    getlineAll_append_delim _ _ _ (bar_not_mem_intToStr _),
    getlineAll_append_delim _ _ _ hflag]
  by_cases hb : b.borrower = []
  · simp [hb, Book.esc, getlineAll]
  · have hne : Book.esc b.borrower ≠ [] := by simpa [Book.esc] using hb
    rw [getlineAll_no_delim _ _ (bar_not_mem_esc _) hne]
    simp [hb]

/-- A book with an empty borrower does not survive the round trip: the result
is `Book()`. -/
theorem deserialize_serialize_empty_borrower (b : Book) (hid : '|' ∉ b.id)
    (hb : b.borrower = []) : Book.deserialize b.serialize = some Book.empty := by
  unfold Book.deserialize
  rw [getlineAll_serialize b hid]
  simp [hb]

/-- A book with a non-empty borrower and a year in the range of `int` survives
the round trip up to the replacement of `'|'`. -/
theorem deserialize_serialize_borrower (b : Book) (hid : '|' ∉ b.id) (hb : b.borrower ≠ [])
    (h1 : INT_MIN ≤ b.year) (h2 : b.year ≤ INT_MAX) :
    Book.deserialize b.serialize = some (Book.canonical b) := by
  unfold Book.deserialize
  rw [getlineAll_serialize b hid]
  simp only [hb, if_false, List.cons_append, List.nil_append, stoi_intToStr h1 h2]
  unfold Book.canonical
  cases hbor : b.isBorrowed <;> simp

/-! ## More on assignments through a pointer -/

theorem bookAt_modifyAt_ne (f : Book → Book) (bs : List Book) {i j : Nat} (h : j ≠ i) :
    bookAt (modifyAt f bs i) j = bookAt bs j := by
  induction bs generalizing i j with
  | nil => simp [modifyAt]
  | cons b bs ih =>
    cases i with
    | zero =>
      cases j with
      | zero => exact absurd rfl h
      | succ j => simp [modifyAt, bookAt]
    | succ i =>
      cases j with
      | zero => simp [modifyAt, bookAt]
      | succ j =>
        have := ih (i := i) (j := j) (by omega)
        simpa [modifyAt, bookAt] using this

theorem modifyAt_modifyAt (f g : Book → Book) (bs : List Book) (i : Nat) :
    modifyAt g (modifyAt f bs i) i = modifyAt (fun b => g (f b)) bs i := by
  induction bs generalizing i with
  | nil => simp [modifyAt]
  | cons b bs ih => cases i <;> simp [modifyAt, ih]

theorem modifyAt_eq_self (f : Book → Book) (bs : List Book) (i : Nat)
    (h : f (bookAt bs i) = bookAt bs i) : modifyAt f bs i = bs := by
  induction bs generalizing i with
  | nil => simp [modifyAt]
  | cons b bs ih =>
    cases i with
    | zero => simpa [modifyAt, bookAt] using h
    | succ i =>
      have := ih i (by simpa [bookAt] using h)
      simp [modifyAt, this]

theorem modifyAt_congr (f g : Book → Book) (bs : List Book) (i : Nat)
    (h : f (bookAt bs i) = g (bookAt bs i)) : modifyAt f bs i = modifyAt g bs i := by
  induction bs generalizing i with
  | nil => simp [modifyAt]
  | cons b bs ih =>
    cases i with
    | zero => simpa [modifyAt, bookAt] using h
    | succ i =>
      have := ih i (by simpa [bookAt] using h)
      simp [modifyAt, this]

theorem resolveBorrow_of_findById {bs : List Book} {q id2 : Str} {i : Nat}
    (h : findById bs q = some i) : resolveBorrow bs q id2 = Except.ok i := by
  unfold resolveBorrow
  rw [h]

/-- The result of a borrow request that passes every check. -/
theorem borrow_success (lib : Library) (q id2 name now : Str) (i : Nat)
    (hres : resolveBorrow lib.books (trim q) id2 = Except.ok i)
    (hav : (bookAt lib.books i).isBorrowed = false) (hname : trim name ≠ [])
    (hlimit : countBorrowedByUser lib.books name < borrowLimitPerUser) :
    borrowInteractive lib q id2 name now =
      (Outcome.done,
        { lib with
          books := modifyAt (markBorrowed (trim name)) lib.books i
          history := lib.history ++
            [⟨now, BORROW, (bookAt lib.books i).id, (bookAt lib.books i).title, trim name⟩] }) := by
  have hc : ¬ countBorrowedByUser lib.books (trim name) ≥ borrowLimitPerUser := by
    rw [countBorrowedByUser_trim]; omega
  unfold borrowInteractive
  rw [hres]
  simp [hav, hname, hc]

/-- The result of a return request that passes every check. -/
theorem return_success (lib : Library) (id name now : Str) (i : Nat)
    (hfind : findById lib.books id = some i)
    (hb : (bookAt lib.books i).isBorrowed = true)
    (hname : toLower (trim name) = toLower (bookAt lib.books i).borrower) :
    returnInteractive lib id name now =
      (Outcome.done,
        { lib with
          books := modifyAt markReturned lib.books i
          history := lib.history ++
            [⟨now, RETURN, (bookAt lib.books i).id, (bookAt lib.books i).title, trim name⟩] }) := by
  unfold returnInteractive
  rw [hfind]
  simp [hb, hname]

/-! ## Deleting by ID -/

theorem findById_eq_none_iff (bs : List Book) (id : Str) :
    findById bs id = none ↔ id ∉ bs.map Book.id := by
  induction bs with
  | nil => simp [findById]
  | cons b bs ih =>
    simp only [findById, List.map_cons, List.mem_cons, not_or]
    by_cases hb : b.id = id
    · simp [hb]
    · simp only [hb, if_false, Option.map_eq_none', ih]
      constructor
      · intro h; exact ⟨fun h' => hb h'.symm, h⟩
      · intro h; exact h.2

theorem filter_id_ne_of_not_mem (bs : List Book) (id : Str) (h : id ∉ bs.map Book.id) :
    bs.filter (fun b => decide (b.id ≠ id)) = bs := by
  apply List.filter_eq_self.mpr
  intro b hb
  simp only [decide_eq_true_eq]
  intro hid
  exact h (List.mem_map.mpr ⟨b, hb, hid⟩)

theorem eraseIdx_findById (bs : List Book) (id : Str) (i : Nat)
    (hnd : (bs.map Book.id).Nodup) (h : findById bs id = some i) :
    findById (bs.eraseIdx i) id = none ∧
      bs.eraseIdx i = bs.filter (fun b => decide (b.id ≠ id)) := by
  induction bs generalizing i with
  | nil => simp [findById] at h
  | cons b bs ih =>
    simp only [List.map_cons, List.nodup_cons] at hnd
    simp only [findById] at h
    by_cases hb : b.id = id
    · simp only [hb, if_true, Option.some.injEq] at h
      subst h
      have hnot : id ∉ bs.map Book.id := by rw [← hb]; exact hnd.1
      refine ⟨by simpa using (findById_eq_none_iff bs id).mpr hnot, ?_⟩
      simp only [List.eraseIdx_cons_zero]
      have hdec : decide (b.id ≠ id) = false := by simp [hb]
      rw [List.filter_cons, hdec]
      exact (filter_id_ne_of_not_mem bs id hnot).symm
    · simp only [hb, if_false] at h
      cases hf : findById bs id with
      | none => simp [hf] at h
      | some j =>
        simp only [hf, Option.map_some', Option.some.injEq] at h
        subst h
        obtain ⟨h1, h2⟩ := ih j hnd.2 hf
        refine ⟨by simp [findById, hb, h1], ?_⟩
        simp only [List.eraseIdx_cons_succ]
        have hdec : decide (b.id ≠ id) = true := by simp [hb]
        rw [List.filter_cons, hdec, h2]
        rfl

/-! ## Searching -/

theorem contains_iff_infix (hay needle : Str) : contains hay needle = true ↔ needle <:+: hay := by
  induction hay with
  | nil =>
    simp only [contains, List.isEmpty_iff, List.infix_nil]
  | cons c cs ih =>
    simp only [contains, Bool.or_eq_true, List.isPrefixOf_iff_prefix, ih]
    exact List.infix_cons_iff.symm

theorem mem_filter_range (n : Nat) (p : Nat → Bool) (j : Nat) :
    j ∈ (List.range n).filter p ↔ j < n ∧ p j = true := by
  simp [List.mem_filter, List.mem_range]

theorem pairwise_filter_range (n : Nat) (p : Nat → Bool) :
    ((List.range n).filter p).Pairwise (fun a b => a < b) :=
  (List.pairwise_lt_range n).sublist (List.filter_sublist _)

/-! ## Sorting -/

theorem insertSorted_perm (comp : Book → Book → Bool) (x : Book) (l : List Book) :
    (insertSorted comp x l).Perm (x :: l) := by
  induction l with
  | nil => exact List.Perm.refl _
  | cons y ys ih =>
    simp only [insertSorted]
    split_ifs
    · exact (List.Perm.cons y ih).trans (List.Perm.swap x y ys)
    · exact List.Perm.refl _

theorem stdSort_perm (comp : Book → Book → Bool) (l : List Book) : (stdSort comp l).Perm l := by
  induction l with
  | nil => exact List.Perm.refl _
  | cons x xs ih =>
    simp only [stdSort]
    exact (insertSorted_perm comp x _).trans (List.Perm.cons x ih)

theorem insertSorted_pairwise (comp : Book → Book → Bool)
    (hasymm : ∀ a b, comp a b = true → comp b a = false)
    (htrans : ∀ a b c, comp b a = false → comp c b = false → comp c a = false)
    (x : Book) (l : List Book) (hl : l.Pairwise (fun a b => comp b a = false)) :
    (insertSorted comp x l).Pairwise (fun a b => comp b a = false) := by
  induction l with
  | nil => simp [insertSorted]
  | cons y ys ih =>
    obtain ⟨hy, hys⟩ := List.pairwise_cons.mp hl
    simp only [insertSorted]
    split_ifs with hc
    · refine List.pairwise_cons.mpr ⟨?_, ih hys⟩
      intro z hz
      rcases List.mem_cons.mp ((insertSorted_perm comp x ys).mem_iff.mp hz) with rfl | hz
      · exact hasymm _ _ hc
      · exact hy z hz
    · have hxy : comp y x = false := by simpa using hc
      refine List.pairwise_cons.mpr ⟨?_, hl⟩
      intro z hz
      rcases List.mem_cons.mp hz with rfl | hz
      · exact hxy
      · exact htrans x y z hxy (hy z hz)

theorem stdSort_pairwise (comp : Book → Book → Bool)
    (hasymm : ∀ a b, comp a b = true → comp b a = false)
    (htrans : ∀ a b c, comp b a = false → comp c b = false → comp c a = false)
    (l : List Book) : (stdSort comp l).Pairwise (fun a b => comp b a = false) := by
  induction l with
  | nil => simp [stdSort]
  | cons x xs ih =>
    simp only [stdSort]
    exact insertSorted_pairwise comp hasymm htrans x _ ih

theorem strLt_asymm (a b : Str) (h : strLt a b = true) : strLt b a = false := by
  induction a generalizing b with
  | nil => cases b <;> simp [strLt] at h ⊢
  | cons x xs ih =>
    cases b with
    | nil => simp [strLt] at h
    | cons y ys =>
      simp only [strLt, Bool.or_eq_true, decide_eq_true_eq, Bool.and_eq_true, beq_iff_eq] at h
      simp only [strLt, Bool.or_eq_false_iff, decide_eq_false_iff_not, Bool.and_eq_false_imp,
        beq_iff_eq]
      rcases h with h | ⟨h1, h2⟩
      · exact ⟨by omega, fun h' => by omega⟩
      · exact ⟨by omega, fun _ => ih ys h2⟩

theorem strLt_trans_not (a b c : Str) (h1 : strLt b a = false) (h2 : strLt c b = false) :
    strLt c a = false := by
  induction a generalizing b c with
  | nil => cases c <;> simp [strLt]
  | cons x xs ih =>
    cases c with
    | nil =>
      cases b with
      | nil => simp [strLt] at h1
      | cons y ys => simp [strLt] at h2
    | cons z zs =>
      cases b with
      | nil => simp [strLt] at h1
      | cons y ys =>
        simp only [strLt, Bool.or_eq_false_iff, decide_eq_false_iff_not, Bool.and_eq_false_imp,
          beq_iff_eq] at h1 h2 ⊢
        refine ⟨by omega, fun hzx => ?_⟩
        have hyx : y.toNat = x.toNat := by omega
        have hzy : z.toNat = y.toNat := by omega
        exact ih ys zs (h1.2 hyx) (h2.2 hzy)

theorem compTitle_asymm (a b : Book) (h : compTitle a b = true) : compTitle b a = false :=
  strLt_asymm _ _ h

theorem compTitle_trans (a b c : Book) (h1 : compTitle b a = false) (h2 : compTitle c b = false) :
    compTitle c a = false :=
  strLt_trans_not _ _ _ h1 h2

theorem compYear_asymm (a b : Book) (h : compYear a b = true) : compYear b a = false := by
  simp only [compYear, decide_eq_true_eq, decide_eq_false_iff_not] at h ⊢
  omega

theorem compYear_trans (a b c : Book) (h1 : compYear b a = false) (h2 : compYear c b = false) :
    compYear c a = false := by
  simp only [compYear, decide_eq_false_iff_not] at h1 h2 ⊢
  omega

theorem compAvailability_asymm (a b : Book) (h : compAvailability a b = true) :
    compAvailability b a = false := by
  unfold compAvailability at h ⊢
  cases ha : a.isBorrowed <;> cases hb : b.isBorrowed <;> simp [ha, hb] at h ⊢

theorem compAvailability_trans (a b c : Book) (h1 : compAvailability b a = false)
    (h2 : compAvailability c b = false) : compAvailability c a = false := by
  unfold compAvailability at h1 h2 ⊢
  cases ha : a.isBorrowed <;> cases hb : b.isBorrowed <;> cases hc : c.isBorrowed <;>
    simp [ha, hb, hc] at h1 h2 ⊢

/-! ## Requests that fail -/

theorem borrow_not_done {lib : Library} {q id2 name now : Str}
    (h : (borrowInteractive lib q id2 name now).1 ≠ Outcome.done) :
    (borrowInteractive lib q id2 name now).2 = lib := by
  unfold borrowInteractive at h ⊢
  split
  · rfl
  · rename_i i hres
    rw [hres] at h
    dsimp only at h ⊢
    split_ifs at h ⊢ <;> first | rfl | exact absurd rfl h

theorem return_not_done {lib : Library} {id name now : Str}
    (h : (returnInteractive lib id name now).1 ≠ Outcome.done) :
    (returnInteractive lib id name now).2 = lib := by
  unfold returnInteractive at h ⊢
  split
  · rfl
  · rename_i i hres
    rw [hres] at h
    dsimp only at h ⊢
    split_ifs at h ⊢ <;> first | rfl | exact absurd rfl h

/-! ## The history file -/

theorem trim_eq_nil_iff (s : Str) : trim s = [] ↔ ∀ c ∈ s, isTrimChar c = true := by
  induction s with
  | nil => simp [trim_nil]
  | cons c cs ih =>
    rw [trim_cons]
    by_cases hc : isTrimChar c = true
    · simp only [hc, if_true, ih, List.mem_cons, forall_eq_or_imp, true_and]
    · simp only [hc, Bool.false_eq_true, if_false]
      exact rtrim_eq_nil_iff (c :: cs)

theorem getlineAll_delim_ne_nil (d : Char) (xs : Str) : getlineAll d (xs ++ [d]) ≠ [] := by
  induction xs with
  | nil => simp [getlineAll]
  | cons c cs ih =>
    by_cases hc : c = d
    · simp [getlineAll, hc]
    · have hstep : getlineAll d (c :: (cs ++ [d])) =
          match getlineAll d (cs ++ [d]) with
          | [] => [[c]]
          | t :: ts => (c :: t) :: ts := by
        simp only [getlineAll, hc, if_false]
      rw [List.cons_append, hstep]
      cases getlineAll d (cs ++ [d]) <;> simp

theorem getlineAll_split (d : Char) (xs rest : Str) :
    getlineAll d (xs ++ d :: rest) = getlineAll d (xs ++ [d]) ++ getlineAll d rest := by
  induction xs with
  | nil => simp [getlineAll]
  | cons c cs ih =>
    by_cases hc : c = d
    · have hstep : ∀ ys : Str, getlineAll d (c :: ys) = [] :: getlineAll d ys := by
        intro ys
        simp only [getlineAll, hc, if_true]
      rw [List.cons_append, List.cons_append, hstep, hstep, ih]
      rfl
    · have hstep : ∀ ys : Str, getlineAll d (c :: ys) =
          match getlineAll d ys with
          | [] => [[c]]
          | t :: ts => (c :: t) :: ts := by
        intro ys
        simp only [getlineAll, hc, if_false]
      rw [List.cons_append, List.cons_append, hstep, hstep, ih]
      have hne := getlineAll_delim_ne_nil d cs
      cases hg : getlineAll d (cs ++ [d]) with
      | nil => exact absurd hg hne
      | cons t ts => simp

/-- The lines read from a file that ends a line, followed by one more line. -/
theorem getlineAll_append_line (d : Char) (file line : Str)
    (hfile : file = [] ∨ ∃ pre, file = pre ++ [d]) (hline : d ∉ line) :
    getlineAll d (file ++ (line ++ [d])) = getlineAll d file ++ [line] := by
  have hl : getlineAll d (line ++ [d]) = [line] := by
    rw [getlineAll_append_delim d line [] hline]
    rfl
  rcases hfile with h | ⟨pre, h⟩
  · rw [h, List.nil_append, hl]
    rfl
  · rw [h, List.append_assoc, List.singleton_append, getlineAll_split, hl]

theorem loadHistoryLines_append (xs ys : List Str) :
    loadHistoryLines (xs ++ ys) = loadHistoryLines xs ++ loadHistoryLines ys := by
  induction xs with
  | nil => rfl
  | cons x xs ih =>
    simp only [List.cons_append, loadHistoryLines]
    split_ifs <;> simp [ih]

theorem newline_not_mem_esc {s : Str} (h : '\n' ∉ s) : '\n' ∉ Book.esc s := by
  unfold Book.esc
  intro hm
  obtain ⟨c, hc, hcn⟩ := List.mem_map.mp hm
  split_ifs at hcn with h1
  · exact absurd hcn (by decide)
  · exact h (hcn ▸ hc)

theorem nowStr_facts {ts : Str} (h : IsNowStr ts) :
    ts ≠ [] ∧ '|' ∉ ts ∧ '\n' ∉ ts ∧ trim ts ≠ [] := by
  obtain ⟨hne, hall, c, hc, hd⟩ := h
  have hno : ∀ x : Char, x.isDigit = false → x ≠ '-' → x ≠ ':' → x ≠ ' ' → x ∉ ts := by
    intro x h1 h2 h3 h4 hx
    rcases hall x hx with h | h | h | h
    · rw [h1] at h; exact absurd h (by decide)
    · exact h2 h
    · exact h3 h
    · exact h4 h
  refine ⟨hne, hno _ (by decide) (by decide) (by decide) (by decide),
    hno _ (by decide) (by decide) (by decide) (by decide), ?_⟩
  intro htrim
  have hsp := (trim_eq_nil_iff ts).mp htrim c hc
  have h48 : 48 ≤ c.toNat := by
    simp only [Char.isDigit, Bool.and_eq_true, decide_eq_true_eq] at hd
    exact hd.1
  have hlow : ∀ x : Char, x.toNat < 48 → c ≠ x := fun x hx hcx => by rw [hcx] at h48; omega
  unfold isTrimChar at hsp
  simp [hlow ' ' (by decide), hlow '\t' (by decide), hlow '\r' (by decide),
    hlow '\n' (by decide)] at hsp

theorem action_facts {a : Str} (h : a = BORROW ∨ a = RETURN) : '|' ∉ a ∧ '\n' ∉ a := by
  rcases h with h | h <;> subst h <;> decide

/-- The fields the loop of `HistoryEntry::deserialize` finds in a serialized
entry whose last field is not empty. -/
theorem getlineAll_serialize_history (h : HistoryEntry) (hts : '|' ∉ h.timestamp)
    (hact : '|' ∉ h.action) (hwho : h.byWho ≠ []) :
    getlineAll '|' h.serialize =
      [h.timestamp, h.action, Book.esc h.bookID, Book.esc h.title, Book.esc h.byWho] := by
  have hser : h.serialize = h.timestamp ++ '|' :: (h.action ++ '|' :: (Book.esc h.bookID ++
      '|' :: (Book.esc h.title ++ '|' :: Book.esc h.byWho))) := by
    simp [HistoryEntry.serialize, List.append_assoc]
  have hne : Book.esc h.byWho ≠ [] := by simpa [Book.esc] using hwho
  rw [hser, getlineAll_append_delim _ _ _ hts, getlineAll_append_delim _ _ _ hact,
    getlineAll_append_delim _ _ _ (bar_not_mem_esc _),
    getlineAll_append_delim _ _ _ (bar_not_mem_esc _),
    getlineAll_no_delim _ _ (bar_not_mem_esc _) hne]

theorem history_round_trip (h : HistoryEntry) (hts : '|' ∉ h.timestamp)
    (hact : '|' ∉ h.action) (hwho : h.byWho ≠ []) :
    HistoryEntry.deserialize h.serialize = h.canonical := by
  unfold HistoryEntry.deserialize
  rw [getlineAll_serialize_history h hts hact hwho]
  rfl

theorem trim_serialize_history_ne_nil (h : HistoryEntry) (hts : trim h.timestamp ≠ []) :
    trim h.serialize ≠ [] := by
  intro h0
  apply hts
  rw [trim_eq_nil_iff] at h0 ⊢
  intro c hc
  apply h0
  simp [HistoryEntry.serialize, hc]

theorem loadHistoryLines_serialize (h : HistoryEntry) (hts : IsNowStr h.timestamp)
    (hact : h.action = BORROW ∨ h.action = RETURN) (hwho : h.byWho ≠ []) :
    loadHistoryLines [h.serialize] = [h.canonical] := by
  obtain ⟨h1, h2, _, h4⟩ := nowStr_facts hts
  have htrim : (trim h.serialize).isEmpty = false := by
    cases hs : trim h.serialize with
    | nil => exact absurd hs (trim_serialize_history_ne_nil h h4)
    | cons _ _ => rfl
  have hempty : h.canonical.timestamp.isEmpty = false := by
    cases hs : h.timestamp with
    | nil => exact absurd hs h1
    | cons _ _ => simp [HistoryEntry.canonical, hs]
  simp only [loadHistoryLines, htrim, Bool.false_eq_true, if_false,
    history_round_trip h h2 (action_facts hact).1 hwho, hempty]

/-! ## The counting loop -/

theorem countBorrowedByUser_eq (books : List Book) (name : Str) :
    countBorrowedByUser books name = books.countP (heldBy name) := rfl

theorem foldl_count (p : Book → Bool) (bs : List Book) (a : Nat) :
    bs.foldl (fun cnt b => if p b = true then cnt + 1 else cnt) a = a + bs.countP p := by
  induction bs generalizing a with
  | nil => simp
  | cons b bs ih =>
    simp only [List.foldl_cons, List.countP_cons]
    rw [ih]
    split_ifs <;> omega

/-- The count is the value of `cnt` at the end of the loop
`for (b : books) if (...) cnt++;` started with `cnt = 0`. -/
theorem countBorrowedByUser_eq_loop (books : List Book) (name : Str) :
    countBorrowedByUser books name =
      books.foldl (fun cnt b =>
        if (b.isBorrowed && toLower (trim b.borrower) == toLower (trim name)) = true
        then cnt + 1 else cnt) 0 := by
  rw [foldl_count]
  simp [countBorrowedByUser]

theorem toLower_toLower (s : Str) : toLower (toLower s) = toLower s := by
  unfold toLower
  rw [List.map_map]
  apply List.map_congr_left
  intro c _
  simp only [Function.comp]
  unfold tolower
  by_cases h1 : 65 ≤ c.toNat ∧ c.toNat ≤ 90
  · obtain ⟨h3, h4⟩ := h1
    have hlow : ¬ (65 ≤ (Char.ofNat (c.toNat + 32)).toNat ∧
        (Char.ofNat (c.toNat + 32)).toNat ≤ 90) := by
      generalize c.toNat = n at h3 h4
      interval_cases n <;> decide
    simp [h3, h4, hlow]
  · simp [h1]

/-! ## Lines with too few fields -/

theorem length_getlineAll_le (d : Char) (s : Str) :
    (getlineAll d s).length ≤ s.count d + 1 := by
  induction s with
  | nil => simp [getlineAll]
  | cons c cs ih =>
    by_cases hc : c = d
    · simp only [getlineAll, hc, if_true, List.length_cons, List.count_cons_self]
      omega
    · have hstep : getlineAll d (c :: cs) =
          match getlineAll d cs with
          | [] => [[c]]
          | t :: ts => (c :: t) :: ts := by
        simp only [getlineAll, hc, if_false]
      rw [hstep, List.count_cons_of_ne (fun h => hc h.symm)]
      cases hg : getlineAll d cs with
      | nil => simp
      | cons t ts =>
        rw [hg] at ih
        simpa using ih

theorem deserialize_of_few_fields (line : Str) (h : (getlineAll '|' line).length < 6) :
    Book.deserialize line = some Book.empty := by
  unfold Book.deserialize
  split
  · rename_i p0 p1 p2 p3 p4 p5 rest heq
    rw [heq] at h
    simp only [List.length_cons] at h
    omega
  · rfl

theorem deserialize_history_of_few_fields (line : Str) (h : (getlineAll '|' line).length < 5) :
    HistoryEntry.deserialize line = HistoryEntry.empty := by
  unfold HistoryEntry.deserialize
  split
  · rename_i p0 p1 p2 p3 p4 rest heq
    rw [heq] at h
    simp only [List.length_cons] at h
    omega
  · rfl

theorem loadLines_skip (line : Str) (rest : List Str)
    (h : Book.deserialize line = some Book.empty) : loadLines (line :: rest) = loadLines rest := by
  have hid : Book.empty.id.isEmpty = true := rfl
  simp only [loadLines, h, hid, if_true]
  split_ifs
  · rfl
  · cases loadLines rest <;> rfl

theorem loadHistoryLines_skip (line : Str) (rest : List Str)
    (h : HistoryEntry.deserialize line = HistoryEntry.empty) :
    loadHistoryLines (line :: rest) = loadHistoryLines rest := by
  simp only [loadHistoryLines, h]
  split_ifs with h1 h2
  · rfl
  · rfl
  · exact absurd rfl h2

/-! ## The outcomes of borrow and return -/

theorem borrow_outcome (lib : Library) (q id2 name now : Str) :
    (borrowInteractive lib q id2 name now).1 ∈
      [Outcome.done, Outcome.notFound, Outcome.invalidId, Outcome.alreadyBorrowed,
        Outcome.emptyName, Outcome.limitExceeded] := by
  unfold borrowInteractive
  cases hr : resolveBorrow lib.books (trim q) id2 with
  | error e =>
    unfold resolveBorrow at hr
    split at hr
    · cases hr
    · split_ifs at hr
      · cases hr; simp
      · split at hr
        · cases hr
        · cases hr; simp
  | ok i =>
    dsimp only
    split_ifs <;> simp

theorem return_outcome (lib : Library) (id name now : Str) :
    (returnInteractive lib id name now).1 ∈
      [Outcome.done, Outcome.notFound, Outcome.notBorrowed, Outcome.nameMismatch] := by
  unfold returnInteractive
  split
  · simp
  · dsimp only
    split_ifs <;> simp

/-! ## The lending limit is kept -/

theorem count_modifyAt_same (f : Book → Book) (bs : List Book) (i : Nat) (name : Str)
    (hi : i < bs.length)
    (hb : (f (bookAt bs i)).isBorrowed = (bookAt bs i).isBorrowed)
    (hw : (f (bookAt bs i)).borrower = (bookAt bs i).borrower) :
    countBorrowedByUser (modifyAt f bs i) name = countBorrowedByUser bs name := by
  have h := countP_modifyAt
    (fun b => b.isBorrowed && toLower (trim b.borrower) == toLower (trim name)) f bs i hi
  simp only [hb, hw] at h
  unfold countBorrowedByUser
  omega

theorem LimitInv_add (lib : Library) (t a : Str) (y : Int) (h : LimitInv lib) :
    LimitInv (addBookInteractive lib t a y).2 := by
  intro name
  have := h name
  simp only [addBookInteractive, generateNextId, countBorrowedByUser, List.countP_append,
    List.countP_cons, List.countP_nil] at this ⊢
  simpa using this

theorem LimitInv_update (lib : Library) (id t a : Str) (y : Int) (h : LimitInv lib) :
    LimitInv (updateBookInteractive lib id t a y).2 := by
  unfold updateBookInteractive
  split
  · exact h
  · rename_i i hfind
    intro name
    dsimp only
    rw [count_modifyAt_same _ _ _ _ (findById_lt hfind) (by split_ifs <;> rfl)
      (by split_ifs <;> rfl)]
    exact h name

theorem LimitInv_delete (lib : Library) (id : Str) (c : Char) (h : LimitInv lib) :
    LimitInv (deleteBookInteractive lib id c).2 := by
  unfold deleteBookInteractive
  split
  · exact h
  · split_ifs
    · intro name
      exact le_trans ((List.eraseIdx_sublist _ _).countP_le _) (h name)
    · exact h

theorem LimitInv_borrow (lib : Library) (q id2 n now : Str) (h : LimitInv lib) :
    LimitInv (borrowInteractive lib q id2 n now).2 := by
  by_cases hd : (borrowInteractive lib q id2 n now).1 = Outcome.done
  · obtain ⟨i, _, hi, hav, _, hc, hs⟩ := borrow_done hd
    rw [hs]
    intro name
    have hcnt := countP_modifyAt
      (fun b => b.isBorrowed && toLower (trim b.borrower) == toLower (trim name))
      (markBorrowed (trim n)) lib.books i hi
    simp only [hav, Bool.false_and, Bool.false_eq_true, if_false, markBorrowed, Bool.true_and,
      Nat.add_zero] at hcnt
    have hname := h name
    unfold countBorrowedByUser at hname hc ⊢
    dsimp only
    rw [hcnt]
    by_cases hm : toLower (trim (trim n)) = toLower (trim name)
    · rw [hm] at hc
      simp only [hm, beq_self_eq_true, if_true]
      unfold borrowLimitPerUser at hc ⊢
      omega
    · have hm' : (toLower (trim (trim n)) == toLower (trim name)) = false := by
        simpa using hm
      simp only [hm', Bool.false_eq_true, if_false, Nat.add_zero]
      exact hname
  · rw [borrow_not_done hd]
    exact h

theorem LimitInv_return (lib : Library) (id n now : Str) (h : LimitInv lib) :
    LimitInv (returnInteractive lib id n now).2 := by
  by_cases hd : (returnInteractive lib id n now).1 = Outcome.done
  · obtain ⟨i, _, hi, _, _, hs⟩ := return_done hd
    rw [hs]
    intro name
    have hcnt := countP_modifyAt
      (fun b => b.isBorrowed && toLower (trim b.borrower) == toLower (trim name))
      markReturned lib.books i hi
    simp only [markReturned, Bool.false_and, Bool.false_eq_true, if_false, Nat.add_zero] at hcnt
    have hname := h name
    unfold countBorrowedByUser at hname ⊢
    dsimp only
    omega
  · rw [return_not_done hd]
    exact h

theorem LimitInv_step (lib : Library) (op : Op) (h : LimitInv lib) : LimitInv (step lib op) := by
  cases op with
  | add t a y => exact LimitInv_add lib t a y h
  | update id t a y => exact LimitInv_update lib id t a y h
  | delete id c => exact LimitInv_delete lib id c h
  | borrow q id2 n now => exact LimitInv_borrow lib q id2 n now h
  | giveBack id n now => exact LimitInv_return lib id n now h

theorem LimitInv_run (lib : Library) (ops : List Op) (h : LimitInv lib) :
    LimitInv (run lib ops) := by
  induction ops generalizing lib with
  | nil => exact h
  | cons op ops ih => exact ih (step lib op) (LimitInv_step lib op h)


theorem count_le_borrowed (books : List Book) (name : Str) :
    countBorrowedByUser books name ≤ books.countP (fun b => b.isBorrowed) := by
  unfold countBorrowedByUser
  apply List.countP_mono_left
  intro b _ hb
  simp only [Bool.and_eq_true] at hb
  exact hb.1

/-! ## The fallback search of borrow -/

theorem resolveBorrow_fallback {bs : List Book} {q id2 : Str} {i : Nat}
    (hfall : findById bs q = none) (h : resolveBorrow bs q id2 = Except.ok i) :
    titleMatches bs (toLower q) ≠ [] ∧ findById bs id2 = some i := by
  unfold resolveBorrow at h
  rw [hfall] at h
  dsimp only at h
  split_ifs at h with hempty
  constructor
  · intro h0
    rw [h0] at hempty
    exact hempty rfl
  · cases hf : findById bs id2 with
    | none => rw [hf] at h; cases h
    | some j => rw [hf] at h; cases h; rfl

/-! ## Claims -/

/-- C1 (fails on the code): for an available book, whose borrower is empty,
`Book::deserialize(Book::serialize(b))` is the empty record `Book()` and not the
book with its `'|'` replaced: the line ends in `'|'`, the `getline` loop yields
five fields, and `deserialize` gives up. -/
theorem C1_available_book_does_not_round_trip :
    Book.deserialize (Book.serialize sampleAvailable) = some Book.empty ∧
      Book.deserialize (Book.serialize sampleAvailable) ≠ some (Book.canonical sampleAvailable) := by
  decide

/-- C2 (fails on the code): loading the text that `saveToFile` writes for a
catalog of an available and a borrowed book yields the borrowed book only; the
available record is dropped. -/
theorem C2_save_then_load_drops_available :
    loadFromFile (saveToFile [sampleAvailable, sampleBorrowed]) = some [sampleBorrowed] ∧
      loadFromFile (saveToFile [sampleAvailable, sampleBorrowed]) ≠
        some [Book.canonical sampleAvailable, Book.canonical sampleBorrowed] := by
  decide

/-- C3 (fails on the code): a line with six fields whose year is `abc` makes
`stoi` throw inside `Book::deserialize`, nothing catches it, and `loadFromFile`
does not return the record of the well-formed line that follows. -/
theorem C3_bad_year_aborts_load :
    Book.deserialize badYearLine = none ∧
      loadFromFile (badYearLine ++ ['\n'] ++ Book.serialize sampleBorrowed ++ ['\n']) = none ∧
      loadFromFile (Book.serialize sampleBorrowed ++ ['\n']) = some [sampleBorrowed] := by
  decide

/-- C4: the invariant "borrower is non-empty if and only if isBorrowed" holds for
every record after any sequence of add, update, delete, borrow and return
requests, successful or not, started from an empty catalog or from a catalog in
which it holds. -/
theorem C4_borrower_invariant_preserved :
    (∀ (history : List HistoryEntry) (n : Int) (ops : List Op),
        BorrowerInv (run ⟨[], history, n⟩ ops)) ∧
      (∀ (lib : Library) (ops : List Op), BorrowerInv lib → BorrowerInv (run lib ops)) := by
  refine ⟨fun history n ops => BorrowerInv_run _ ops ?_, fun lib ops h => BorrowerInv_run lib ops h⟩
  intro b hb
  simp at hb

/-- C4 at a concrete session. -/
theorem C4_borrower_invariant_preserved_witness :
    BorrowerInv sampleLibrary ∧ BorrowerInv (run sampleLibrary sampleOps) :=
  ⟨by unfold BorrowerInv; decide,
    C4_borrower_invariant_preserved.2 sampleLibrary sampleOps (by unfold BorrowerInv; decide)⟩

/-- C5 (as stated, fails): a catalog with the IDs `BK2147483647` and
`BK-2147483648` is read back from its file unchanged; the IDs are distinct, yet
`recalcNextId` computes `2147483647 + 1`, which wraps to `-2147483648`, and the
first add hands out `BK-2147483648`, the ID of a loaded record. -/
theorem C5_first_add_collides_at_int_max :
    loadFromFile (saveToFile overflowLibrary.books) = some overflowLibrary.books ∧
      (overflowLibrary.books.map Book.id).Nodup ∧
      (addBookInteractive (recalcNextId overflowLibrary) ['E'] ['F'] 3).1
        ∈ overflowLibrary.books.map Book.id ∧
      ¬ ((run (recalcNextId overflowLibrary) [Op.add ['E'] ['F'] 3]).books.map Book.id).Nodup := by
  decide

/-- C5 (amended): if the IDs of the loaded catalog are pairwise distinct and the
largest suffix read by `recalcNextId` plus the number of adds does not exceed
`INT_MAX`, then after `recalcNextId` and any sequence of add, update, delete,
borrow and return the IDs are still pairwise distinct; in particular, when that
largest suffix is below `INT_MAX`, the ID assigned by the first add after a load
is not the ID of any loaded record, whatever strings the loaded IDs are. -/
theorem C5_ids_stay_distinct (lib : Library) (ops : List Op)
    (hdistinct : (lib.books.map Book.id).Nodup)
    (hroom : scanMax lib.books + countAdds ops ≤ INT_MAX) :
    ((run (recalcNextId lib) ops).books.map Book.id).Nodup ∧
      (scanMax lib.books < INT_MAX →
        ∀ (t a : Str) (y : Int),
          (addBookInteractive (recalcNextId lib) t a y).1 ∉ lib.books.map Book.id) := by
  have h0 := scanMax_nonneg lib.books
  constructor
  · apply nodup_run ops (recalcNextId lib) hdistinct
    by_cases hc : countAdds ops = 0
    · exact Or.inl hc
    · have hw : wrapInt (scanMax lib.books + 1) = scanMax lib.books + 1 :=
        wrapInt_of_range (by unfold INT_MIN; omega) (by omega)
      refine Or.inr ?_
      simp only [recalcNextId, hw]
      exact ⟨by omega, by omega, FreshFrom_recalc lib⟩
  · intro hlt t a y
    have hw : wrapInt (scanMax lib.books + 1) = scanMax lib.books + 1 :=
      wrapInt_of_range (by unfold INT_MIN; omega) (by omega)
    simp only [addBookInteractive, generateNextId, recalcNextId, hw]
    exact FreshFrom_recalc lib _ (le_refl _) (by omega)

/-- C5 at a concrete session on a catalog with the IDs `BK001` and `BK002`. -/
theorem C5_ids_stay_distinct_witness :
    (sampleLibrary.books.map Book.id).Nodup ∧
      scanMax sampleLibrary.books + countAdds sampleOps ≤ INT_MAX ∧
      ((run (recalcNextId sampleLibrary) sampleOps).books.map Book.id).Nodup :=
  ⟨by decide, by decide,
    (C5_ids_stay_distinct sampleLibrary sampleOps (by decide) (by decide)).1⟩

/-- C6 (as stated, fails): in a session started on a catalog whose only ID is
`BK2147483646`, which is read back from its file unchanged, the first add is
given `BK2147483647`, the counter wraps, and the second add is given
`BK-2147483648`, whose numeric suffix is smaller. -/
theorem C6_second_add_smaller_at_int_max :
    loadFromFile (saveToFile nearOverflowLibrary.books) = some nearOverflowLibrary.books ∧
      generatedIds (recalcNextId nearOverflowLibrary) twoAdds =
        [['B', 'K', '2', '1', '4', '7', '4', '8', '3', '6', '4', '7'],
          ['B', 'K', '-', '2', '1', '4', '7', '4', '8', '3', '6', '4', '8']] ∧
      (generatedIds (recalcNextId nearOverflowLibrary) twoAdds).map idNumber =
        [some 2147483647, some (-2147483648)] := by
  decide

/-- C6 (amended): within one session, for every sequence of operations in which
the counter does not pass `INT_MAX` (largest loaded suffix plus number of adds
at most `INT_MAX`), the numeric suffix of the ID assigned by an add is strictly
greater than the numeric suffix of every ID generated earlier in the session,
also when records were deleted in between. -/
theorem C6_generated_ids_increase (lib : Library) (ops : List Op)
    (hroom : scanMax lib.books + countAdds ops ≤ INT_MAX) :
    List.Pairwise (fun earlier later => ∃ x y : Int,
        idNumber earlier = some x ∧ idNumber later = some y ∧ x < y)
      (generatedIds (recalcNextId lib) ops) := by
  have h0 := scanMax_nonneg lib.books
  have hgen : (generatedIds (recalcNextId lib) ops).map idNumber =
      (List.range (countAdds ops)).map
        (fun (k : Nat) => some ((recalcNextId lib).nextIdNumber + (k : Int))) := by
    apply generated_numbers
    by_cases hc : countAdds ops = 0
    · exact Or.inl hc
    · have hw : wrapInt (scanMax lib.books + 1) = scanMax lib.books + 1 :=
        wrapInt_of_range (by unfold INT_MIN; omega) (by omega)
      refine Or.inr ?_
      simp only [recalcNextId, hw]
      exact ⟨by omega, by omega⟩
  have hp : List.Pairwise (fun a b : Option Int => ∃ x y : Int, a = some x ∧ b = some y ∧ x < y)
      ((generatedIds (recalcNextId lib) ops).map idNumber) := by
    rw [hgen, List.pairwise_map]
    refine List.Pairwise.imp ?_ (List.pairwise_lt_range (countAdds ops))
    intro i j hij
    exact ⟨_, _, rfl, rfl, by omega⟩
  exact List.pairwise_map.mp hp

/-- C6 at a concrete session with two adds and a delete in between. -/
theorem C6_generated_ids_increase_witness :
    scanMax sampleLibrary.books + countAdds addDeleteAdd ≤ INT_MAX ∧
      generatedIds (recalcNextId sampleLibrary) addDeleteAdd =
        [['B', 'K', '0', '0', '3'], ['B', 'K', '0', '0', '4']] ∧
      List.Pairwise (fun earlier later => ∃ x y : Int,
          idNumber earlier = some x ∧ idNumber later = some y ∧ x < y)
        (generatedIds (recalcNextId sampleLibrary) addDeleteAdd) :=
  ⟨by decide, by decide, C6_generated_ids_increase sampleLibrary addDeleteAdd (by decide)⟩

/-- C7 (as stated, fails): the ID `BK007x`, read back from its file unchanged, does
not match the pattern
`BK` followed only by digits, yet `stoi` reads `007` from it and the counter
becomes 8 instead of 1. -/
theorem C7_non_matching_id_counts :
    loadFromFile (saveToFile trailingLetterLibrary.books) = some trailingLetterLibrary.books ∧
      matchesPattern ['B', 'K', '0', '0', '7', 'x'] = false ∧
      specNextId trailingLetterLibrary.books = 1 ∧
      (recalcNextId trailingLetterLibrary).nextIdNumber = 8 := by
  decide

/-- C7 (amended): after a load the counter computed by `recalcNextId` equals one
plus the maximum numeric suffix among the loaded IDs that match the `BK###`
pattern, and 1 when none matches, provided every such suffix is below `INT_MAX`
and every ID that does not match the pattern is shorter than 5 characters, does
not start with `BK`, or does not continue after `BK` with an integer as `stoi`
reads one (optional white space, optional sign, a digit); those IDs do not
influence the counter. -/
theorem C7_counter_after_load (lib : Library)
    (hsmall : ∀ b ∈ lib.books, matchesPattern b.id = true →
      (patternNumber b.id : Int) < INT_MAX)
    (hother : ∀ b ∈ lib.books, matchesPattern b.id = false →
      b.id.length < 5 ∨ b.id.take 2 ≠ ['B', 'K'] ∨ hasLeadingInteger (b.id.drop 2) = false) :
    (recalcNextId lib).nextIdNumber = specNextId lib.books := by
  have hfold := foldl_scanStep_spec lib.books 0 hsmall hother
  have hlt : (((lib.books.map Book.id).filter matchesPattern).map patternNumber).foldl max 0
      < 2147483647 := by
    apply foldl_max_lt _ _ _ (by decide)
    intro x hx
    obtain ⟨id, hid, rfl⟩ := List.mem_map.mp hx
    obtain ⟨hid1, hid2⟩ := List.mem_filter.mp hid
    obtain ⟨b, hb, rfl⟩ := List.mem_map.mp hid1
    have := hsmall b hb hid2
    unfold INT_MAX at this
    omega
  unfold recalcNextId specNextId scanMax
  simp only [Nat.cast_zero] at hfold
  rw [hfold]
  apply wrapInt_of_range
  · unfold INT_MIN; omega
  · unfold INT_MAX; omega

/-- C7 at a concrete catalog with the IDs `BK007`, `BK12`, `XY123` and `BKabc`:
the counter is 8. -/
theorem C7_counter_after_load_witness :
    (recalcNextId mixedIdLibrary).nextIdNumber = specNextId mixedIdLibrary.books ∧
      specNextId mixedIdLibrary.books = 8 :=
  ⟨C7_counter_after_load mixedIdLibrary (by decide) (by decide), by decide⟩

/-- C8: if `borrow(id, a)` succeeds, a borrow of the same book that follows
immediately, under any name `b` (equal, different or empty), reports
AlreadyBorrowed and changes nothing: the record is still borrowed by `a`
(trimmed, as the first borrow stored it) and the history holds the one entry of
the first borrow and no second one. -/
theorem C8_second_borrow_already_borrowed (lib : Library) (q id2 a b now1 now2 : Str)
    (h : (borrowInteractive lib q id2 a now1).1 = Outcome.done) :
    borrowInteractive (borrowInteractive lib q id2 a now1).2 q id2 b now2 =
        (Outcome.alreadyBorrowed, (borrowInteractive lib q id2 a now1).2) ∧
      ∃ i, resolveBorrow lib.books (trim q) id2 = Except.ok i ∧
        (bookAt (borrowInteractive lib q id2 a now1).2.books i).isBorrowed = true ∧
        (bookAt (borrowInteractive lib q id2 a now1).2.books i).borrower = trim a ∧
        (borrowInteractive lib q id2 a now1).2.history =
          lib.history ++
            [⟨now1, BORROW, (bookAt lib.books i).id, (bookAt lib.books i).title, trim a⟩] := by
  obtain ⟨i, hr, hi, hav, hn, hc, hs⟩ := borrow_done h
  rw [hs]
  refine ⟨?_, i, hr, ?_, ?_, rfl⟩
  · unfold borrowInteractive
    dsimp only
    rw [resolveBorrow_modifyAt (markBorrowed (trim a)) (fun _ => rfl) (fun _ => rfl), hr]
    dsimp only
    rw [bookAt_modifyAt_self hi]
    simp [markBorrowed]
  · dsimp only
    rw [bookAt_modifyAt_self hi]
    rfl
  · dsimp only
    rw [bookAt_modifyAt_self hi]
    rfl

/-- C8 at a concrete catalog: Bob borrows `BK001`, Ann asks for it next. -/
theorem C8_second_borrow_already_borrowed_witness :
    (borrowInteractive sampleLibrary sampleAvailable.id [] ['B', 'o', 'b'] sampleNow).1
        = Outcome.done ∧
      (borrowInteractive
          (borrowInteractive sampleLibrary sampleAvailable.id [] ['B', 'o', 'b'] sampleNow).2
          sampleAvailable.id [] ['A', 'n', 'n'] sampleNow).1 = Outcome.alreadyBorrowed :=
  ⟨by decide,
    by
      rw [(C8_second_borrow_already_borrowed sampleLibrary sampleAvailable.id []
        ['B', 'o', 'b'] ['A', 'n', 'n'] sampleNow sampleNow (by decide)).1]⟩

/-- C9 (as stated, fails): a name that differs from the stored borrower only in
letter case is refused when the stored borrower carries a leading blank, as a
record read from `books.txt` may: `" bob"` is trimmed to `"bob"` before the
comparison with `" Bob"`. -/
theorem C9_case_variant_refused :
    Library.load paddedBorrowerFile [] = some paddedBorrowerLibrary ∧
      findById paddedBorrowerLibrary.books ['B', 'K', '0', '0', '1'] = some 0 ∧
      (bookAt paddedBorrowerLibrary.books 0).isBorrowed = true ∧
      toLower [' ', 'b', 'o', 'b'] = toLower (bookAt paddedBorrowerLibrary.books 0).borrower ∧
      returnInteractive paddedBorrowerLibrary ['B', 'K', '0', '0', '1'] [' ', 'b', 'o', 'b']
          sampleNow = (Outcome.nameMismatch, paddedBorrowerLibrary) := by
  decide

/-- C9 (amended): for a borrowed record, a supplied name that after trimming and
ignoring letter case differs from the stored borrower (taken as stored, or
trimmed as well) yields NameMismatch and leaves catalog and history as they
were; conversely a name that differs from the stored borrower only in letter
case is accepted when the stored borrower has no leading or trailing blank. -/
theorem C9_return_name_check (lib : Library) (id name now : Str) (i : Nat)
    (hfind : findById lib.books id = some i)
    (hborrowed : (bookAt lib.books i).isBorrowed = true) :
    (toLower (trim name) ≠ toLower (bookAt lib.books i).borrower →
        returnInteractive lib id name now = (Outcome.nameMismatch, lib)) ∧
      (toLower (trim name) ≠ toLower (trim (bookAt lib.books i).borrower) →
        returnInteractive lib id name now = (Outcome.nameMismatch, lib)) ∧
      (toLower name = toLower (bookAt lib.books i).borrower →
        trim (bookAt lib.books i).borrower = (bookAt lib.books i).borrower →
        (returnInteractive lib id name now).1 = Outcome.done) := by
  have hmis : toLower (trim name) ≠ toLower (bookAt lib.books i).borrower →
      returnInteractive lib id name now = (Outcome.nameMismatch, lib) := by
    intro hne
    unfold returnInteractive
    rw [hfind]
    simp [hborrowed, hne]
  refine ⟨hmis, ?_, ?_⟩
  · intro hne
    apply hmis
    intro heq
    apply hne
    rw [← trim_toLower (bookAt lib.books i).borrower, ← heq, trim_toLower, trim_trim]
  · intro hcase htrim
    have hmatch : toLower (trim name) = toLower (bookAt lib.books i).borrower := by
      rw [← trim_toLower, hcase, trim_toLower, htrim]
    unfold returnInteractive
    rw [hfind]
    simp [hborrowed, hmatch]

/-- C9 at a concrete catalog: `BK002` is borrowed by Ann; Bob is refused, `ANN`
is accepted. -/
theorem C9_return_name_check_witness :
    returnInteractive sampleLibrary sampleBorrowed.id ['B', 'o', 'b'] sampleNow
        = (Outcome.nameMismatch, sampleLibrary) ∧
      (returnInteractive sampleLibrary sampleBorrowed.id ['A', 'N', 'N'] sampleNow).1
        = Outcome.done :=
  ⟨(C9_return_name_check sampleLibrary sampleBorrowed.id ['B', 'o', 'b'] sampleNow 1
      (by decide) (by decide)).1 (by decide),
    (C9_return_name_check sampleLibrary sampleBorrowed.id ['A', 'N', 'N'] sampleNow 1
      (by decide) (by decide)).2.2 (by decide) (by decide)⟩

/-- C10 (as stated, fails): in a catalog read from `books.txt` in which the name
`" "` holds exactly two borrowed records, a borrow of the available `BK003`
under that name is refused with EmptyName, not LimitExceeded. -/
theorem C10_blank_name_not_limit :
    (Library.load blankBorrowerFile []).map
        (fun lib => (addBookInteractive lib ['E'] ['F'] 3).2) = some blankBorrowerLibrary ∧
      countBorrowedByUser blankBorrowerLibrary.books [' '] = 2 ∧
      resolveBorrow blankBorrowerLibrary.books ['B', 'K', '0', '0', '3'] [] = Except.ok 2 ∧
      (bookAt blankBorrowerLibrary.books 2).isBorrowed = false ∧
      borrowInteractive blankBorrowerLibrary ['B', 'K', '0', '0', '3'] [] [' '] sampleNow
        = (Outcome.emptyName, blankBorrowerLibrary) := by
  decide

/-- C10 (amended): when a borrower name that is not empty after trimming holds
exactly 2 currently borrowed records, a borrow of any available record under
that name, in any letter case and with any surrounding blanks, is refused with
LimitExceeded and changes nothing; and after that borrower has successfully
returned a book, a borrow of an available record under that name succeeds. -/
theorem C10_limit_then_return (lib : Library) (name name' : Str)
    (hcount : countBorrowedByUser lib.books name = 2)
    (hsame : toLower (trim name') = toLower (trim name))
    (hne : trim name' ≠ []) :
    (∀ (q id2 now : Str) (i : Nat),
        resolveBorrow lib.books (trim q) id2 = Except.ok i →
        (bookAt lib.books i).isBorrowed = false →
        borrowInteractive lib q id2 name' now = (Outcome.limitExceeded, lib)) ∧
      (∀ (rid rname rnow : Str),
        toLower (trim rname) = toLower (trim name) →
        (returnInteractive lib rid rname rnow).1 = Outcome.done →
        ∀ (q id2 now : Str) (i : Nat),
          resolveBorrow (returnInteractive lib rid rname rnow).2.books (trim q) id2
            = Except.ok i →
          (bookAt (returnInteractive lib rid rname rnow).2.books i).isBorrowed = false →
          (borrowInteractive (returnInteractive lib rid rname rnow).2 q id2 name' now).1
            = Outcome.done) := by
  constructor
  · intro q id2 now i hres hav
    have hc : countBorrowedByUser lib.books (trim name') = 2 := by
      rw [countBorrowedByUser_trim, countBorrowedByUser_congr lib.books hsame, hcount]
    unfold borrowInteractive
    rw [hres]
    simp [hav, hne, hc, borrowLimitPerUser]
  · intro rid rname rnow hr hdone q id2 now i hres hav
    have h1 := count_after_return hdone
    rw [countBorrowedByUser_congr lib.books hr, hcount] at h1
    have hc : countBorrowedByUser (returnInteractive lib rid rname rnow).2.books (trim name')
        = 1 := by
      rw [countBorrowedByUser_trim, countBorrowedByUser_congr _ hsame,
        ← countBorrowedByUser_congr _ hr]
      omega
    unfold borrowInteractive
    rw [hres]
    simp [hav, hne, hc, borrowLimitPerUser]

/-- C10 at a concrete catalog: Ann holds `BK001` and `BK002`; `" ANN "` is refused
`BK003`, and gets it once `BK001` is back. -/
theorem C10_limit_then_return_witness :
    borrowInteractive limitLibrary ['B', 'K', '0', '0', '3'] [] [' ', 'A', 'N', 'N', ' '] sampleNow
        = (Outcome.limitExceeded, limitLibrary) ∧
      (borrowInteractive
          (returnInteractive limitLibrary ['B', 'K', '0', '0', '1'] ['a', 'n', 'n'] sampleNow).2
          ['B', 'K', '0', '0', '3'] [] [' ', 'A', 'N', 'N', ' '] sampleNow).1 = Outcome.done :=
  ⟨(C10_limit_then_return limitLibrary ['A', 'n', 'n'] [' ', 'A', 'N', 'N', ' ']
      (by decide) (by decide) (by decide)).1 ['B', 'K', '0', '0', '3'] [] sampleNow 2
      (by decide) (by decide),
    (C10_limit_then_return limitLibrary ['A', 'n', 'n'] [' ', 'A', 'N', 'N', ' ']
      (by decide) (by decide) (by decide)).2 ['B', 'K', '0', '0', '1'] ['a', 'n', 'n'] sampleNow
      (by decide) (by decide) ['B', 'K', '0', '0', '3'] [] sampleNow 2 (by decide) (by decide)⟩

/-- C11 (as stated, fails): the name `" "` is not empty and holds no book, yet a
borrow of the available `BK001` under it is refused with EmptyName and nothing
is recorded. -/
theorem C11_blank_name_refused :
    BorrowerInv sampleLibrary ∧
      findById sampleLibrary.books sampleAvailable.id = some 0 ∧
      (bookAt sampleLibrary.books 0).isBorrowed = false ∧
      blankName ≠ [] ∧
      countBorrowedByUser sampleLibrary.books blankName < borrowLimitPerUser ∧
      borrowInteractive sampleLibrary sampleAvailable.id [] blankName sampleNow
        = (Outcome.emptyName, sampleLibrary) := by
  unfold BorrowerInv
  decide

/-- C11 (amended): for every catalog satisfying the borrower invariant, every
available record found by a borrow request through its ID and every name that
is non-empty after trimming and under the lending limit: the borrow followed by
`return(id, name')`, where `name'` differs from the name at most in letter case,
both succeed, catalog and counter afterwards equal those before the borrow, and
the history is the earlier history extended by exactly two entries, a BORROW
then a RETURN, both for that book ID. -/
theorem C11_borrow_then_return (lib : Library) (q id id2 name name' now1 now2 : Str) (i : Nat)
    (hinv : BorrowerInv lib) (hq : trim q = id)
    (hfind : findById lib.books id = some i)
    (hav : (bookAt lib.books i).isBorrowed = false)
    (hname : trim name ≠ [])
    (hlimit : countBorrowedByUser lib.books name < borrowLimitPerUser)
    (hcase : toLower name' = toLower name) :
    (borrowInteractive lib q id2 name now1).1 = Outcome.done ∧
      returnInteractive (borrowInteractive lib q id2 name now1).2 id name' now2 =
        (Outcome.done,
          { lib with
            history := lib.history ++
              [⟨now1, BORROW, id, (bookAt lib.books i).title, trim name⟩,
                ⟨now2, RETURN, id, (bookAt lib.books i).title, trim name'⟩] }) := by
  have hi := findById_lt hfind
  have hid := findById_id hfind
  have hres : resolveBorrow lib.books (trim q) id2 = Except.ok i := by
    rw [hq]; exact resolveBorrow_of_findById hfind
  have hb := borrow_success lib q id2 name now1 i hres hav hname hlimit
  rw [hb]
  refine ⟨rfl, ?_⟩
  have hfind' : findById (modifyAt (markBorrowed (trim name)) lib.books i) id = some i := by
    rw [findById_modifyAt (markBorrowed (trim name)) (fun _ => rfl)]; exact hfind
  have hat : bookAt (modifyAt (markBorrowed (trim name)) lib.books i) i =
      markBorrowed (trim name) (bookAt lib.books i) := bookAt_modifyAt_self hi
  have hmatch : toLower (trim name') = toLower (trim name) := by
    rw [← trim_toLower, hcase, trim_toLower]
  have hr := return_success { lib with
      books := modifyAt (markBorrowed (trim name)) lib.books i
      history := lib.history ++
        [⟨now1, BORROW, (bookAt lib.books i).id, (bookAt lib.books i).title, trim name⟩] }
    id name' now2 i hfind' (by rw [hat]; rfl) (by rw [hat]; exact hmatch)
  rw [hr, hat]
  have hbor : (bookAt lib.books i).borrower = [] := by
    by_contra hne
    have := (hinv _ (bookAt_mem hi)).mp hne
    rw [hav] at this
    exact absurd this (by decide)
  have hback : modifyAt markReturned (modifyAt (markBorrowed (trim name)) lib.books i) i
      = lib.books := by
    rw [modifyAt_modifyAt]
    apply modifyAt_eq_self
    cases hbk : bookAt lib.books i with
    | mk bid bt ba bye bib bbo =>
      rw [hbk] at hav hbor
      simp only at hav hbor
      simp [markReturned, markBorrowed, hav, hbor]
  rw [hback]
  simp [markBorrowed, hid]

/-- C11 at a concrete catalog: Bob borrows `BK001` and `BOB` gives it back. -/
theorem C11_borrow_then_return_witness :
    (returnInteractive
        (borrowInteractive sampleLibrary sampleAvailable.id [] ['B', 'o', 'b'] sampleNow).2
        sampleAvailable.id ['B', 'O', 'B'] sampleNow).2.books = sampleLibrary.books ∧
      (returnInteractive
        (borrowInteractive sampleLibrary sampleAvailable.id [] ['B', 'o', 'b'] sampleNow).2
        sampleAvailable.id ['B', 'O', 'B'] sampleNow).1 = Outcome.done := by
  have h := (C11_borrow_then_return sampleLibrary sampleAvailable.id sampleAvailable.id []
    ['B', 'o', 'b'] ['B', 'O', 'B'] sampleNow sampleNow 0 (by unfold BorrowerInv; decide)
    (by decide) (by decide) (by decide) (by decide) (by decide) (by decide)).2
  rw [h]
  exact ⟨rfl, rfl⟩

/-- C12: a successful borrow changes exactly the target record's `isBorrowed`
(to true) and `borrower` (to the trimmed supplied name): the target's id, title,
author and year, every other record, the catalog order and the counter are
unchanged, and exactly one history entry is appended, with action BORROW, the
target's id, the target's title at that moment and the trimmed name. -/
theorem C12_borrow_changes_only_target (lib : Library) (q id2 name now : Str)
    (h : (borrowInteractive lib q id2 name now).1 = Outcome.done) :
    ∃ i, i < lib.books.length ∧ resolveBorrow lib.books (trim q) id2 = Except.ok i ∧
      (borrowInteractive lib q id2 name now).2.books.length = lib.books.length ∧
      bookAt (borrowInteractive lib q id2 name now).2.books i =
        { bookAt lib.books i with isBorrowed := true, borrower := trim name } ∧
      (∀ j, j ≠ i →
        bookAt (borrowInteractive lib q id2 name now).2.books j = bookAt lib.books j) ∧
      (borrowInteractive lib q id2 name now).2.history =
        lib.history ++
          [⟨now, BORROW, (bookAt lib.books i).id, (bookAt lib.books i).title, trim name⟩] ∧
      (borrowInteractive lib q id2 name now).2.nextIdNumber = lib.nextIdNumber := by
  obtain ⟨i, hr, hi, _, _, _, hs⟩ := borrow_done h
  rw [hs]
  refine ⟨i, hi, hr, length_modifyAt _ _ _, ?_, ?_, rfl, rfl⟩
  · dsimp only
    rw [bookAt_modifyAt_self hi]
    rfl
  · intro j hj
    exact bookAt_modifyAt_ne _ _ hj

/-- C12 at a concrete catalog: Bob borrows `BK001`; `BK002` stays as it was. -/
theorem C12_borrow_changes_only_target_witness :
    (borrowInteractive sampleLibrary sampleAvailable.id [] ['B', 'o', 'b'] sampleNow).1
        = Outcome.done ∧
      bookAt (borrowInteractive sampleLibrary sampleAvailable.id [] ['B', 'o', 'b']
        sampleNow).2.books 1 = sampleBorrowed := by
  refine ⟨by decide, ?_⟩
  obtain ⟨i, _, hres, _, _, hother, _⟩ :=
    C12_borrow_changes_only_target sampleLibrary sampleAvailable.id [] ['B', 'o', 'b'] sampleNow
      (by decide)
  have hi : i = 0 := by
    have h0 : resolveBorrow sampleLibrary.books (trim sampleAvailable.id) [] = Except.ok 0 := by
      decide
    rw [h0] at hres
    exact (Except.ok.inj hres).symm
  rw [hother 1 (by omega)]
  rfl

/-- C13 (as stated, fails): an add with the title `" Dune "` stores the record
with the title `"Dune"`, not with the given title; and on a catalog loaded from
the ID `BK2147483646`, whose counter is `2147483647`, the counter after the add
is `-2147483648`, not `c + 1`. -/
theorem C13_title_trimmed_and_counter_wraps :
    (addBookInteractive freshLibrary paddedTitle ['H'] 1965).2.books
        = [⟨['B', 'K', '0', '0', '1'], ['D', 'u', 'n', 'e'], ['H'], 1965, false, []⟩] ∧
      (addBookInteractive freshLibrary paddedTitle ['H'] 1965).2.books
        ≠ [⟨['B', 'K', '0', '0', '1'], paddedTitle, ['H'], 1965, false, []⟩] ∧
      (recalcNextId nearOverflowLibrary).nextIdNumber = 2147483647 ∧
      (addBookInteractive (recalcNextId nearOverflowLibrary) ['E'] ['F'] 3).2.nextIdNumber
        = -2147483648 := by
  decide

/-- C13 (amended): `add(title, author, year)` on a catalog whose counter is `c`
appends exactly one record at the end with id `BK` followed by `c` written in
decimal and left-padded with zeros to 3 digits, the trimmed title and author,
the given year, `isBorrowed` false and an empty borrower; every earlier record,
their order and the history are unchanged, and the counter becomes `c + 1` when
`c` is below `INT_MAX`; the first add on an empty fresh catalog gets `BK001`. -/
theorem C13_add_appends_record (lib : Library) (title author : Str) (year : Int) :
    (addBookInteractive lib title author year).1
        = ['B', 'K'] ++ padLeft 3 '0' (intToStr lib.nextIdNumber) ∧
      (addBookInteractive lib title author year).2.books =
        lib.books ++ [⟨['B', 'K'] ++ padLeft 3 '0' (intToStr lib.nextIdNumber),
          trim title, trim author, year, false, []⟩] ∧
      (addBookInteractive lib title author year).2.history = lib.history ∧
      (INT_MIN ≤ lib.nextIdNumber → lib.nextIdNumber < INT_MAX →
        (addBookInteractive lib title author year).2.nextIdNumber = lib.nextIdNumber + 1) ∧
      (∀ history : List HistoryEntry,
        (addBookInteractive (recalcNextId ⟨[], history, 1⟩) title author year).1
          = ['B', 'K', '0', '0', '1']) := by
  refine ⟨rfl, rfl, rfl, ?_, ?_⟩
  · intro h1 h2
    simp only [addBookInteractive, generateNextId]
    exact wrapInt_of_range (by unfold INT_MIN at *; omega) (by unfold INT_MAX at *; omega)
  · intro history
    have hnext : (recalcNextId ⟨[], history, 1⟩).nextIdNumber = 1 := by
      simp only [recalcNextId, scanMax, List.foldl_nil]
      decide
    simp only [addBookInteractive, generateNextId, hnext]
    decide

/-- C13 at a concrete catalog: the third book gets `BK003` and the counter
becomes 4. -/
theorem C13_add_appends_record_witness :
    (addBookInteractive sampleLibrary ['E'] ['F'] 3).1 = ['B', 'K', '0', '0', '3'] ∧
      (addBookInteractive sampleLibrary ['E'] ['F'] 3).2.nextIdNumber = 4 :=
  ⟨by
      rw [(C13_add_appends_record sampleLibrary ['E'] ['F'] 3).1]
      decide,
    (C13_add_appends_record sampleLibrary ['E'] ['F'] 3).2.2.2.1 (by decide) (by decide)⟩

/-- C14: `update(id, newTitle, newAuthor, newYear)` on an existing id replaces the
title only if `newTitle` is non-empty, the author only if `newAuthor` is
non-empty and the year only if `newYear` is not 0, and keeps the old value
otherwise (the new text is stored trimmed, and a text of blanks only keeps the
old value as well); it never changes the record's id, `isBorrowed` or borrower,
nor any other record, the history or the counter; on an absent id it reports
NotFound and the library is unchanged. -/
theorem C14_update_changes_only_supplied_fields (lib : Library) (id newTitle newAuthor : Str)
    (newYear : Int) :
    (findById lib.books id = none →
        updateBookInteractive lib id newTitle newAuthor newYear = (Outcome.notFound, lib)) ∧
      (∀ i, findById lib.books id = some i →
        (updateBookInteractive lib id newTitle newAuthor newYear).1 = Outcome.done ∧
        (updateBookInteractive lib id newTitle newAuthor newYear).2.history = lib.history ∧
        (updateBookInteractive lib id newTitle newAuthor newYear).2.nextIdNumber
          = lib.nextIdNumber ∧
        (updateBookInteractive lib id newTitle newAuthor newYear).2.books.length
          = lib.books.length ∧
        (∀ j, j ≠ i →
          bookAt (updateBookInteractive lib id newTitle newAuthor newYear).2.books j
            = bookAt lib.books j) ∧
        (bookAt (updateBookInteractive lib id newTitle newAuthor newYear).2.books i).id
          = (bookAt lib.books i).id ∧
        (bookAt (updateBookInteractive lib id newTitle newAuthor newYear).2.books i).isBorrowed
          = (bookAt lib.books i).isBorrowed ∧
        (bookAt (updateBookInteractive lib id newTitle newAuthor newYear).2.books i).borrower
          = (bookAt lib.books i).borrower ∧
        (bookAt (updateBookInteractive lib id newTitle newAuthor newYear).2.books i).title
          = (if trim newTitle = [] then (bookAt lib.books i).title else trim newTitle) ∧
        (bookAt (updateBookInteractive lib id newTitle newAuthor newYear).2.books i).author
          = (if trim newAuthor = [] then (bookAt lib.books i).author else trim newAuthor) ∧
        (bookAt (updateBookInteractive lib id newTitle newAuthor newYear).2.books i).year
          = (if newYear = 0 then (bookAt lib.books i).year else newYear) ∧
        (newTitle = [] →
          (bookAt (updateBookInteractive lib id newTitle newAuthor newYear).2.books i).title
            = (bookAt lib.books i).title) ∧
        (newAuthor = [] →
          (bookAt (updateBookInteractive lib id newTitle newAuthor newYear).2.books i).author
            = (bookAt lib.books i).author)) := by
  constructor
  · intro h
    unfold updateBookInteractive
    rw [h]
  · intro i h
    have hi := findById_lt h
    unfold updateBookInteractive
    rw [h]
    dsimp only
    refine ⟨rfl, rfl, rfl, length_modifyAt _ _ _, fun j hj => bookAt_modifyAt_ne _ _ hj, ?_⟩
    rw [bookAt_modifyAt_self hi]
    generalize bookAt lib.books i = b
    have ht : newTitle = [] → trim newTitle = [] := fun h0 => by rw [h0]; rfl
    have ha : newAuthor = [] → trim newAuthor = [] := fun h0 => by rw [h0]; rfl
    refine ⟨?_, ?_, ?_, ?_, ?_, ?_, ?_, ?_⟩
    · by_cases h1 : trim newTitle = [] <;> by_cases h2 : trim newAuthor = [] <;>
        by_cases h3 : newYear = 0 <;> simp [h1, h2, h3]
    · by_cases h1 : trim newTitle = [] <;> by_cases h2 : trim newAuthor = [] <;>
        by_cases h3 : newYear = 0 <;> simp [h1, h2, h3]
    · by_cases h1 : trim newTitle = [] <;> by_cases h2 : trim newAuthor = [] <;>
        by_cases h3 : newYear = 0 <;> simp [h1, h2, h3]
    · by_cases h1 : trim newTitle = [] <;> by_cases h2 : trim newAuthor = [] <;>
        by_cases h3 : newYear = 0 <;> simp [h1, h2, h3]
    · by_cases h1 : trim newTitle = [] <;> by_cases h2 : trim newAuthor = [] <;>
        by_cases h3 : newYear = 0 <;> simp [h1, h2, h3]
    · by_cases h1 : trim newTitle = [] <;> by_cases h2 : trim newAuthor = [] <;>
        by_cases h3 : newYear = 0 <;> simp [h1, h2, h3]
    · intro h0
      have h1 := ht h0
      by_cases h2 : trim newAuthor = [] <;> by_cases h3 : newYear = 0 <;> simp [h1, h2, h3]
    · intro h0
      have h2 := ha h0
      by_cases h1 : trim newTitle = [] <;> by_cases h3 : newYear = 0 <;> simp [h1, h2, h3]

/-- C14 at a concrete catalog: only the title of `BK001` is replaced. -/
theorem C14_update_changes_only_supplied_fields_witness :
    (bookAt (updateBookInteractive sampleLibrary sampleAvailable.id ['I', 't'] [] 0).2.books 0).title
        = ['I', 't'] ∧
      updateBookInteractive sampleLibrary ['B', 'K', '9'] ['I', 't'] [] 0
        = (Outcome.notFound, sampleLibrary) := by
  have h := C14_update_changes_only_supplied_fields sampleLibrary sampleAvailable.id ['I', 't'] [] 0
  have h' := C14_update_changes_only_supplied_fields sampleLibrary ['B', 'K', '9'] ['I', 't'] [] 0
  refine ⟨?_, h'.1 (by decide)⟩
  rw [(h.2 0 (by decide)).2.2.2.2.2.2.2.2.1]
  decide

/-- C15: for every catalog with pairwise distinct IDs, a confirmed `delete(id)` of
an existing id removes exactly that record, so `findById(id)` afterwards finds
nothing, and keeps every other record and their relative order (history and
counter too); delete of an absent id reports NotFound and an unconfirmed delete
leaves the library unchanged. -/
theorem C15_delete_removes_exactly_one (lib : Library) (id : Str) (c : Char)
    (hdistinct : (lib.books.map Book.id).Nodup) :
    (findById lib.books id = none →
        deleteBookInteractive lib id c = (Outcome.notFound, lib)) ∧
      (∀ i, findById lib.books id = some i →
        ((c = 'y' ∨ c = 'Y') →
          (deleteBookInteractive lib id c).1 = Outcome.done ∧
          (deleteBookInteractive lib id c).2.books = lib.books.eraseIdx i ∧
          (deleteBookInteractive lib id c).2.books
            = lib.books.filter (fun b => decide (b.id ≠ id)) ∧
          (deleteBookInteractive lib id c).2.books.length + 1 = lib.books.length ∧
          findById (deleteBookInteractive lib id c).2.books id = none ∧
          (deleteBookInteractive lib id c).2.history = lib.history ∧
          (deleteBookInteractive lib id c).2.nextIdNumber = lib.nextIdNumber) ∧
        (¬ (c = 'y' ∨ c = 'Y') →
          deleteBookInteractive lib id c = (Outcome.cancelled, lib))) := by
  constructor
  · intro h
    unfold deleteBookInteractive
    rw [h]
  · intro i h
    have hi := findById_lt h
    obtain ⟨h1, h2⟩ := eraseIdx_findById lib.books id i hdistinct h
    constructor
    · intro hc
      have heq : deleteBookInteractive lib id c =
          (Outcome.done, { lib with books := lib.books.eraseIdx i }) := by
        unfold deleteBookInteractive
        rw [h]
        simp only [hc, if_true]
      rw [heq]
      refine ⟨rfl, rfl, h2, ?_, h1, rfl, rfl⟩
      dsimp only
      rw [List.length_eraseIdx, if_pos hi]
      omega
    · intro hc
      unfold deleteBookInteractive
      rw [h]
      simp only [hc, if_false]

/-- C15 at a concrete catalog: `BK001` is deleted and `BK002` stays. -/
theorem C15_delete_removes_exactly_one_witness :
    (sampleLibrary.books.map Book.id).Nodup ∧
      (deleteBookInteractive sampleLibrary sampleAvailable.id 'y').2.books = [sampleBorrowed] ∧
      deleteBookInteractive sampleLibrary sampleAvailable.id 'n'
        = (Outcome.cancelled, sampleLibrary) := by
  have h := (C15_delete_removes_exactly_one sampleLibrary sampleAvailable.id 'y' (by decide)).2 0
    (by decide)
  have h' := (C15_delete_removes_exactly_one sampleLibrary sampleAvailable.id 'n' (by decide)).2 0
    (by decide)
  refine ⟨by decide, ?_, h'.2 (by decide)⟩
  rw [(h.1 (by decide)).2.1]
  rfl

/-- C16 (as stated, fails): a Title search for the keyword `"dune "` lists the
book `Dune`, although its lowercased title does not contain the lowercased
keyword: the keyword is trimmed before the search. -/
theorem C16_keyword_trimmed_before_search :
    searchIndicesInteractive sampleLibrary.books SearchMode.title.option 0 trailingBlankKeyword
        = [0] ∧
      ¬ recordMatches SearchMode.title 0 (toLower trailingBlankKeyword)
        (bookAt sampleLibrary.books 0) := by
  refine ⟨by decide, ?_⟩
  unfold recordMatches
  dsimp only
  rw [← contains_iff_infix]
  decide

/-- C16 (amended): for every catalog and search request, the result lists each
matching record exactly once, in catalog storage order, and nothing else, where
a record matches in Year mode iff its year equals the value, in Title mode iff
its lowercased title contains the trimmed and lowercased keyword, in Author mode
iff its lowercased author contains it, and in Either mode iff title or author
does. -/
theorem C16_search_lists_matches_in_order (books : List Book) (mode : SearchMode) (y : Int)
    (kw : Str) :
    (searchIndicesInteractive books mode.option y kw).Pairwise (fun a b => a < b) ∧
      ∀ j, j ∈ searchIndicesInteractive books mode.option y kw ↔
        j < books.length ∧ recordMatches mode y (toLower (trim kw)) (bookAt books j) := by
  cases mode with
  | title =>
    have hs : searchIndicesInteractive books SearchMode.title.option y kw =
        (List.range books.length).filter
          (fun i => contains (toLower (bookAt books i).title) (toLower (trim kw))) := by
      simp [searchIndicesInteractive, SearchMode.option]
    rw [hs]
    refine ⟨pairwise_filter_range _ _, fun j => ?_⟩
    rw [mem_filter_range, contains_iff_infix]
    rfl
  | author =>
    have hs : searchIndicesInteractive books SearchMode.author.option y kw =
        (List.range books.length).filter
          (fun i => contains (toLower (bookAt books i).author) (toLower (trim kw))) := by
      simp [searchIndicesInteractive, SearchMode.option]
    rw [hs]
    refine ⟨pairwise_filter_range _ _, fun j => ?_⟩
    rw [mem_filter_range, contains_iff_infix]
    rfl
  | year =>
    have hs : searchIndicesInteractive books SearchMode.year.option y kw =
        (List.range books.length).filter (fun i => (bookAt books i).year == y) := by
      simp [searchIndicesInteractive, SearchMode.option]
    rw [hs]
    refine ⟨pairwise_filter_range _ _, fun j => ?_⟩
    rw [mem_filter_range]
    simp [recordMatches]
  | either =>
    have hs : searchIndicesInteractive books SearchMode.either.option y kw =
        (List.range books.length).filter
          (fun i => contains (toLower (bookAt books i).title) (toLower (trim kw)) ||
            contains (toLower (bookAt books i).author) (toLower (trim kw))) := by
      simp [searchIndicesInteractive, SearchMode.option]
    rw [hs]
    refine ⟨pairwise_filter_range _ _, fun j => ?_⟩
    rw [mem_filter_range, Bool.or_eq_true, contains_iff_infix, contains_iff_infix]
    rfl

/-- C17: for every catalog and sort key, the listing is a permutation of the
catalog's records that is ordered by the key: non-decreasing lowercased title
for the title key (choice 1), non-decreasing year for the year key (choice 2),
no borrowed record before an available one for the availability key (choice 3),
and storage order for any other choice; listing leaves the library, and so the
stored order, as it is. -/
theorem C17_listing_sorted_permutation (books : List Book) (opt : Int) :
    (displayAllInteractive books opt).Perm books ∧
      (opt = 1 → (displayAllInteractive books opt).Pairwise
        (fun a b => strLt (toLower b.title) (toLower a.title) = false)) ∧
      (opt = 2 → (displayAllInteractive books opt).Pairwise (fun a b => a.year ≤ b.year)) ∧
      (opt = 3 → (displayAllInteractive books opt).Pairwise
        (fun a b => ¬ (a.isBorrowed = true ∧ b.isBorrowed = false))) ∧
      (opt ≠ 1 → opt ≠ 2 → opt ≠ 3 → displayAllInteractive books opt = books) ∧
      (∀ lib : Library, perform lib (Request.list opt) = lib) := by
  cases books with
  | nil =>
    refine ⟨by simp [displayAllInteractive], ?_, ?_, ?_, ?_, fun _ => rfl⟩ <;>
      intros <;> simp [displayAllInteractive]
  | cons b bs =>
    refine ⟨?_, ?_, ?_, ?_, ?_, fun _ => rfl⟩
    · unfold displayAllInteractive
      simp only [List.isEmpty_cons, Bool.false_eq_true, if_false]
      split_ifs
      · exact stdSort_perm _ _
      · exact stdSort_perm _ _
      · exact stdSort_perm _ _
      · exact List.Perm.refl _
    · intro h
      subst h
      simp only [displayAllInteractive, List.isEmpty_cons, Bool.false_eq_true, if_false, if_true]
      exact stdSort_pairwise compTitle compTitle_asymm compTitle_trans _
    · intro h
      subst h
      have hs : displayAllInteractive (b :: bs) 2 = stdSort compYear (b :: bs) := by
        simp [displayAllInteractive]
      rw [hs]
      refine (stdSort_pairwise compYear compYear_asymm compYear_trans _).imp ?_
      intro x y hxy
      simp only [compYear, decide_eq_false_iff_not] at hxy
      omega
    · intro h
      subst h
      have hs : displayAllInteractive (b :: bs) 3 = stdSort compAvailability (b :: bs) := by
        simp [displayAllInteractive]
      rw [hs]
      refine (stdSort_pairwise compAvailability compAvailability_asymm
        compAvailability_trans _).imp ?_
      intro x y hxy hxy'
      simp [compAvailability, hxy'.1, hxy'.2] at hxy
    · intro h1 h2 h3
      simp [displayAllInteractive, h1, h2, h3]

/-- C17 at the catalog of the specification: `Apple` is listed before `Banana`
whatever the stored order. -/
theorem C17_listing_sorted_permutation_witness :
    displayAllInteractive [bananaBook, appleBook] 1 = [appleBook, bananaBook] ∧
      displayAllInteractive [appleBook, bananaBook] 1 = [appleBook, bananaBook] ∧
      (displayAllInteractive [bananaBook, appleBook] 2).Pairwise (fun a b => a.year ≤ b.year) ∧
      displayAllInteractive [bananaBook, appleBook] 4 = [bananaBook, appleBook] :=
  ⟨by decide, by decide,
    (C17_listing_sorted_permutation [bananaBook, appleBook] 2).2.2.1 rfl,
    (C17_listing_sorted_permutation [bananaBook, appleBook] 4).2.2.2.2.1
      (by decide) (by decide) (by decide)⟩

/-- C18: for every history log of size `s` and every integer `n`, the entries
shown are the last `n` entries in insertion order when `0 < n ≤ s`, and the
complete log, in insertion order, when `n ≤ 0` or `n > s`. -/
theorem C18_recent_entries (history : List HistoryEntry) (n : Int) :
    (0 < n → n ≤ history.length →
        showHistoryInteractive history n = history.drop (history.length - n.toNat) ∧
        (showHistoryInteractive history n).length = n.toNat ∧
        showHistoryInteractive history n <:+ history) ∧
      ((n ≤ 0 ∨ (history.length : Int) < n) → showHistoryInteractive history n = history) := by
  cases history with
  | nil =>
    constructor
    · intro h1 h2
      simp only [List.length_nil, Nat.cast_zero] at h2
      omega
    · intro _
      rfl
  | cons e es =>
    constructor
    · intro h1 h2
      have hshow : showHistoryInteractive (e :: es) n =
          (e :: es).drop ((e :: es).length - n.toNat) := by
        unfold showHistoryInteractive
        simp only [List.isEmpty_cons, Bool.false_eq_true, if_false]
        have hn : ¬ n ≤ 0 := by omega
        simp only [hn, if_false]
        congr 1
        omega
      rw [hshow]
      refine ⟨rfl, ?_, List.drop_suffix _ _⟩
      rw [List.length_drop]
      omega
    · intro h
      unfold showHistoryInteractive
      simp only [List.isEmpty_cons, Bool.false_eq_true, if_false]
      have hstart : (max 0 (((e :: es).length : Int) -
          (if n ≤ 0 then ((e :: es).length : Int) else n))).toNat = 0 := by
        split_ifs <;> omega
      rw [hstart]
      rfl

/-- C18 at a log of three entries: `recent(2)` shows the entries 2 and 3,
`recent(5)` and `recent(0)` show all three. -/
theorem C18_recent_entries_witness :
    showHistoryInteractive sampleHistory 2 = sampleHistory.drop 1 ∧
      showHistoryInteractive sampleHistory 5 = sampleHistory ∧
      showHistoryInteractive sampleHistory 0 = sampleHistory :=
  ⟨((C18_recent_entries sampleHistory 2).1 (by decide) (by decide)).1,
    (C18_recent_entries sampleHistory 5).2 (Or.inr (by decide)),
    (C18_recent_entries sampleHistory 0).2 (Or.inl (by decide))⟩

/-- C19: the history is append-only: for every request (add, update, delete,
search, list, borrow, return, recent), the history before the request is a
prefix of the history after it; the history grows only on a successful borrow
or a successful return, and then by exactly one entry. -/
theorem C19_history_append_only (lib : Library) (req : Request) :
    lib.history <+: (perform lib req).history ∧
      ∃ extra : List HistoryEntry,
        (perform lib req).history = lib.history ++ extra ∧
          extra.length = (if lendingSucceeds lib req = true then 1 else 0) := by
  have key : ∃ extra : List HistoryEntry,
      (perform lib req).history = lib.history ++ extra ∧
        extra.length = (if lendingSucceeds lib req = true then 1 else 0) := by
    cases req with
    | change op =>
      cases op with
      | add t a y => exact ⟨[], by simp [perform, step, addBookInteractive, generateNextId], rfl⟩
      | update id t a y =>
        refine ⟨[], ?_, rfl⟩
        simp only [perform, step, updateBookInteractive]
        split <;> simp
      | delete id c =>
        refine ⟨[], ?_, rfl⟩
        simp only [perform, step, deleteBookInteractive]
        split
        · simp
        · split_ifs <;> simp
      | borrow q id2 n now =>
        by_cases hd : (borrowInteractive lib q id2 n now).1 = Outcome.done
        · obtain ⟨i, _, _, _, _, _, hs⟩ := borrow_done hd
          refine ⟨[⟨now, BORROW, (bookAt lib.books i).id, (bookAt lib.books i).title, trim n⟩],
            ?_, ?_⟩
          · simp only [perform, step]
            rw [hs]
          · simp [lendingSucceeds, hd]
        · refine ⟨[], ?_, ?_⟩
          · simp only [perform, step]
            rw [borrow_not_done hd]
            simp
          · simp [lendingSucceeds, hd]
      | giveBack id n now =>
        by_cases hd : (returnInteractive lib id n now).1 = Outcome.done
        · obtain ⟨i, _, _, _, _, hs⟩ := return_done hd
          refine ⟨[⟨now, RETURN, (bookAt lib.books i).id, (bookAt lib.books i).title, trim n⟩],
            ?_, ?_⟩
          · simp only [perform, step]
            rw [hs]
          · simp [lendingSucceeds, hd]
        · refine ⟨[], ?_, ?_⟩
          · simp only [perform, step]
            rw [return_not_done hd]
            simp
          · simp [lendingSucceeds, hd]
    | search o y kw => exact ⟨[], by simp [perform], rfl⟩
    | list o => exact ⟨[], by simp [perform], rfl⟩
    | recent n => exact ⟨[], by simp [perform], rfl⟩
  obtain ⟨extra, h1, h2⟩ := key
  exact ⟨⟨extra, h1.symm⟩, extra, h1, h2⟩

/-- C20: for every history entry as a successful borrow or return creates it
(time stamp from `nowStr`, action BORROW or RETURN, non-empty `byWho`),
`HistoryEntry::deserialize(HistoryEntry::serialize(h))` equals `h` with every
`'|'` in `bookID`, `title` and `byWho` replaced by `'/'`, and the loop of
`loadHistoryFromFile` keeps the entry; hence the line that `appendHistoryToFile`
writes behind a file of complete lines reloads to that entry, behind the
entries of the file (the texts of the entry are single lines, as all texts the
program reads are). -/
theorem C20_history_entry_round_trip (h : HistoryEntry) (file : Str)
    (hts : IsNowStr h.timestamp) (hact : h.action = BORROW ∨ h.action = RETURN)
    (hwho : h.byWho ≠ []) :
    HistoryEntry.deserialize h.serialize = h.canonical ∧
      loadHistoryLines [h.serialize] = [h.canonical] ∧
      ('\n' ∉ h.bookID → '\n' ∉ h.title → '\n' ∉ h.byWho →
        (file = [] ∨ ∃ pre, file = pre ++ ['\n']) →
        loadHistoryFromFile (appendHistoryToFile file h)
          = loadHistoryFromFile file ++ [h.canonical]) := by
  obtain ⟨_, h2, h3, _⟩ := nowStr_facts hts
  obtain ⟨ha1, ha2⟩ := action_facts hact
  refine ⟨history_round_trip h h2 ha1 hwho, loadHistoryLines_serialize h hts hact hwho, ?_⟩
  intro hb ht hw hfile
  have hline : '\n' ∉ h.serialize := by
    have e1 := newline_not_mem_esc hb
    have e2 := newline_not_mem_esc ht
    have e3 := newline_not_mem_esc hw
    have hbar : ('\n' : Char) ≠ '|' := by decide
    simp [HistoryEntry.serialize, h3, ha2, e1, e2, e3, hbar]
  unfold loadHistoryFromFile appendHistoryToFile
  rw [getlineAll_append_line '\n' file h.serialize hfile hline, loadHistoryLines_append,
    loadHistoryLines_serialize h hts hact hwho]

/-- C20 at the entry logged when Bob borrows the book `a|b`: it is reloaded with
the title `a/b`. -/
theorem C20_history_entry_round_trip_witness :
    IsNowStr sampleEntry.timestamp ∧
      HistoryEntry.deserialize sampleEntry.serialize
        = { sampleEntry with title := ['a', '/', 'b'] } ∧
      loadHistoryFromFile (appendHistoryToFile [] sampleEntry)
        = [{ sampleEntry with title := ['a', '/', 'b'] }] := by
  have hts : IsNowStr sampleEntry.timestamp := by
    unfold IsNowStr
    decide
  have h := C20_history_entry_round_trip sampleEntry [] hts (Or.inl rfl) (by decide)
  refine ⟨hts, ?_, ?_⟩
  · rw [h.1]
    decide
  · rw [h.2.2 (by decide) (by decide) (by decide) (Or.inl rfl)]
    decide

/-- C21: for every catalog and name, `countBorrowedBy(name)` equals the number of
records that are currently borrowed and whose borrower, trimmed and lowercased,
equals the trimmed and lowercased name; hence the count is the same for any two
names that differ only in letter case or in leading and trailing blanks, and
records that are not borrowed never count. -/
theorem C21_count_borrowed_by (books : List Book) (name : Str) :
    countBorrowedByUser books name =
        (books.filter (fun b =>
          decide (b.isBorrowed = true ∧
            toLower (trim b.borrower) = toLower (trim name)))).length ∧
      (∀ other : Str, toLower (trim other) = toLower (trim name) →
        countBorrowedByUser books other = countBorrowedByUser books name) ∧
      (∀ other : Str, toLower other = toLower name →
        countBorrowedByUser books other = countBorrowedByUser books name) ∧
      (∀ other : Str, trim other = trim name →
        countBorrowedByUser books other = countBorrowedByUser books name) ∧
      countBorrowedByUser books name =
        countBorrowedByUser (books.filter (fun b => b.isBorrowed)) name ∧
      (∀ b : Book, b.isBorrowed = false →
        countBorrowedByUser (b :: books) name = countBorrowedByUser books name) := by
  refine ⟨?_, ?_, ?_, ?_, ?_, ?_⟩
  · unfold countBorrowedByUser
    rw [List.countP_eq_length_filter]
    congr 2
    funext b
    by_cases h : toLower (trim b.borrower) = toLower (trim name) <;> simp [h]
  · intro other h
    exact countBorrowedByUser_congr books h
  · intro other h
    apply countBorrowedByUser_congr
    rw [← trim_toLower, h, trim_toLower]
  · intro other h
    apply countBorrowedByUser_congr
    rw [h]
  · unfold countBorrowedByUser
    rw [List.countP_filter]
    congr 1
    funext b
    cases b.isBorrowed <;> simp
  · intro b hb
    unfold countBorrowedByUser
    rw [List.countP_cons]
    simp [hb]

/-- C21 at a concrete catalog: Ann holds `BK001` and `BK002`, and `" ANN "` is
counted like `Ann`. -/
theorem C21_count_borrowed_by_witness :
    countBorrowedByUser limitLibrary.books ['A', 'n', 'n'] = 2 ∧
      countBorrowedByUser limitLibrary.books [' ', 'A', 'N', 'N', ' '] =
        countBorrowedByUser limitLibrary.books ['A', 'n', 'n'] :=
  ⟨by decide,
    (C21_count_borrowed_by limitLibrary.books ['A', 'n', 'n']).2.1 [' ', 'A', 'N', 'N', ' ']
      (by decide)⟩

/-- C22: for every line that splits on `'|'` into fewer than 6 fields,
`Book::deserialize` returns the invalid record (empty id, year 0, not borrowed)
whatever the fields are, so without parsing a year and without an exception,
and for every line that splits into fewer than 5 fields
`HistoryEntry::deserialize` returns the invalid entry (empty time stamp); the
loaders skip such lines. The number of fields is the number of tokens the
`getline` loop yields; a line with fewer than 5 (or 4) delimiters is such a
line. -/
theorem C22_short_lines_are_skipped (line : Str) (rest : List Str) :
    ((getlineAll '|' line).length < 6 →
        Book.deserialize line = some Book.empty ∧ loadLines (line :: rest) = loadLines rest) ∧
      ((getlineAll '|' line).length < 5 →
        HistoryEntry.deserialize line = HistoryEntry.empty ∧
          loadHistoryLines (line :: rest) = loadHistoryLines rest) ∧
      (line.count '|' < 5 → Book.deserialize line = some Book.empty) ∧
      (line.count '|' < 4 → HistoryEntry.deserialize line = HistoryEntry.empty) ∧
      Book.empty.id = [] ∧ Book.empty.year = 0 ∧ Book.empty.isBorrowed = false ∧
      HistoryEntry.empty.timestamp = [] := by
  have hle := length_getlineAll_le '|' line
  refine ⟨?_, ?_, ?_, ?_, rfl, rfl, rfl, rfl⟩
  · intro h
    have hd := deserialize_of_few_fields line h
    exact ⟨hd, loadLines_skip line rest hd⟩
  · intro h
    have hd := deserialize_history_of_few_fields line h
    exact ⟨hd, loadHistoryLines_skip line rest hd⟩
  · intro h
    exact deserialize_of_few_fields line (by omega)
  · intro h
    exact deserialize_history_of_few_fields line (by omega)

/-- C22 at concrete lines: a books line with three fields and a history line with
two fields are skipped, the record behind them is loaded. -/
theorem C22_short_lines_are_skipped_witness :
    (getlineAll '|' shortBookLine).length = 3 ∧
      loadLines [shortBookLine, Book.serialize sampleBorrowed] = some [sampleBorrowed] ∧
      (getlineAll '|' shortHistoryLine).length = 2 ∧
      loadHistoryLines [shortHistoryLine] = [] := by
  refine ⟨by decide, ?_, by decide, ?_⟩
  · rw [((C22_short_lines_are_skipped shortBookLine [Book.serialize sampleBorrowed]).1
      (by decide)).2]
    decide
  · rw [((C22_short_lines_are_skipped shortHistoryLine []).2.1 (by decide)).2]
    rfl

/-- C23: every failing borrow (NotFound, invalid ID re-supplied, AlreadyBorrowed,
EmptyName, LimitExceeded) and every failing return (NotFound, NotBorrowed,
NameMismatch) leaves the whole catalog, the history and the next-ID counter
exactly as they were before the call. -/
theorem C23_failing_requests_change_nothing (lib : Library) (q id2 name now id : Str) :
    ((borrowInteractive lib q id2 name now).1 ≠ Outcome.done →
        (borrowInteractive lib q id2 name now).1 ∈
          [Outcome.notFound, Outcome.invalidId, Outcome.alreadyBorrowed, Outcome.emptyName,
            Outcome.limitExceeded] ∧
        (borrowInteractive lib q id2 name now).2 = lib) ∧
      ((returnInteractive lib id name now).1 ≠ Outcome.done →
        (returnInteractive lib id name now).1 ∈
          [Outcome.notFound, Outcome.notBorrowed, Outcome.nameMismatch] ∧
        (returnInteractive lib id name now).2 = lib) := by
  constructor
  · intro h
    refine ⟨?_, borrow_not_done h⟩
    have := borrow_outcome lib q id2 name now
    rcases List.mem_cons.mp this with h1 | h1
    · exact absurd h1 h
    · exact h1
  · intro h
    refine ⟨?_, return_not_done h⟩
    have := return_outcome lib id name now
    rcases List.mem_cons.mp this with h1 | h1
    · exact absurd h1 h
    · exact h1

/-- C23 at a concrete catalog: a borrow of the borrowed `BK002` and a return of
`BK002` under the wrong name change nothing. -/
theorem C23_failing_requests_change_nothing_witness :
    (borrowInteractive sampleLibrary sampleBorrowed.id [] ['B', 'o', 'b'] sampleNow).1
        = Outcome.alreadyBorrowed ∧
      (borrowInteractive sampleLibrary sampleBorrowed.id [] ['B', 'o', 'b'] sampleNow).2
        = sampleLibrary ∧
      (returnInteractive sampleLibrary sampleBorrowed.id ['B', 'o', 'b'] sampleNow).2
        = sampleLibrary :=
  ⟨by decide,
    ((C23_failing_requests_change_nothing sampleLibrary sampleBorrowed.id [] ['B', 'o', 'b']
      sampleNow sampleBorrowed.id).1 (by decide)).2,
    ((C23_failing_requests_change_nothing sampleLibrary sampleBorrowed.id [] ['B', 'o', 'b']
      sampleNow sampleBorrowed.id).2 (by decide)).2⟩

/-- C24: lending-limit invariant: if in the initial catalog no borrower name
(compared trimmed and case-insensitively) holds more than 2 currently borrowed
records, then after any sequence of add, update, delete, borrow and return no
borrower name holds more than 2 currently borrowed records. -/
theorem C24_lending_limit_invariant (lib : Library) (ops : List Op) (h : LimitInv lib) :
    LimitInv (run lib ops) :=
  LimitInv_run lib ops h

/-- C24 at a concrete session: Ann holds two books, asks for a third, gives one
back and borrows the third; she never holds more than two. -/
theorem C24_lending_limit_invariant_witness :
    LimitInv limitLibrary ∧
      countBorrowedByUser
        (run limitLibrary
          [Op.borrow ['B', 'K', '0', '0', '3'] [] ['a', 'n', 'n'] sampleNow,
            Op.giveBack ['B', 'K', '0', '0', '1'] ['a', 'n', 'n'] sampleNow,
            Op.borrow ['B', 'K', '0', '0', '3'] [] ['A', 'N', 'N'] sampleNow]).books
        ['A', 'n', 'n'] ≤ borrowLimitPerUser := by
  have h0 : LimitInv limitLibrary := fun name =>
    le_trans (count_le_borrowed limitLibrary.books name) (by decide)
  exact ⟨h0, C24_lending_limit_invariant limitLibrary _ h0 ['A', 'n', 'n']⟩

/-- C25 (as stated, fails): the query `dun` is no ID and lists the candidate
`Dune` (`BK001`) only; the user then types `BK003`, and the borrow succeeds on
the book `It`, which is not a candidate: its lowercased title does not contain
the query. -/
theorem C25_fallback_borrows_non_candidate :
    findById fallbackLibrary.books (trim dunFragment) = none ∧
      titleMatches fallbackLibrary.books (toLower (trim dunFragment)) = [0] ∧
      (borrowInteractive fallbackLibrary dunFragment ['B', 'K', '0', '0', '3'] ['B', 'o', 'b']
        sampleNow).1 = Outcome.done ∧
      (bookAt (borrowInteractive fallbackLibrary dunFragment ['B', 'K', '0', '0', '3']
        ['B', 'o', 'b'] sampleNow).2.books 1).isBorrowed = true ∧
      (bookAt (borrowInteractive fallbackLibrary dunFragment ['B', 'K', '0', '0', '3']
        ['B', 'o', 'b'] sampleNow).2.books 0).isBorrowed = false ∧
      contains (toLower (bookAt fallbackLibrary.books 1).title) (toLower dunFragment) = false := by
  decide

/-- C25 (amended): when the borrow query equals no record's ID and borrow falls
back to the title-fragment search, the list of candidates is not empty and the
record that a successful borrow finally marks as borrowed is the first record
whose ID is the re-supplied ID; it is one of the listed candidates exactly when
its lowercased title contains the trimmed and lowercased query. -/
theorem C25_fallback_borrows_resupplied_id (lib : Library) (q id2 name now : Str)
    (hfall : findById lib.books (trim q) = none)
    (hdone : (borrowInteractive lib q id2 name now).1 = Outcome.done) :
    ∃ i, findById lib.books id2 = some i ∧ (bookAt lib.books i).id = id2 ∧
      titleMatches lib.books (toLower (trim q)) ≠ [] ∧
      (borrowInteractive lib q id2 name now).2.books
        = modifyAt (markBorrowed (trim name)) lib.books i ∧
      (bookAt (borrowInteractive lib q id2 name now).2.books i).isBorrowed = true ∧
      (i ∈ titleMatches lib.books (toLower (trim q)) ↔
        toLower (trim q) <:+: toLower (bookAt lib.books i).title) := by
  obtain ⟨i, hr, hi, _, _, _, hs⟩ := borrow_done hdone
  obtain ⟨hne, hfind⟩ := resolveBorrow_fallback hfall hr
  refine ⟨i, hfind, findById_id hfind, hne, by rw [hs], ?_, ?_⟩
  · rw [hs]
    dsimp only
    rw [bookAt_modifyAt_self hi]
    rfl
  · unfold titleMatches
    rw [mem_filter_range, contains_iff_infix]
    exact ⟨fun h => h.2, fun h => ⟨hi, h⟩⟩

/-- C25 at a concrete catalog: after the query `dun` the user types `BK001`, the
ID of the listed candidate, and `Dune` is borrowed. -/
theorem C25_fallback_borrows_resupplied_id_witness :
    findById fallbackLibrary.books (trim dunFragment) = none ∧
      (borrowInteractive fallbackLibrary dunFragment ['B', 'K', '0', '0', '1'] ['B', 'o', 'b']
        sampleNow).1 = Outcome.done ∧
      ∃ i, findById fallbackLibrary.books ['B', 'K', '0', '0', '1'] = some i ∧
        (bookAt (borrowInteractive fallbackLibrary dunFragment ['B', 'K', '0', '0', '1']
          ['B', 'o', 'b'] sampleNow).2.books i).isBorrowed = true := by
  refine ⟨by decide, by decide, ?_⟩
  obtain ⟨i, h1, _, _, _, h5, _⟩ :=
    C25_fallback_borrows_resupplied_id fallbackLibrary dunFragment ['B', 'K', '0', '0', '1']
      ['B', 'o', 'b'] sampleNow (by decide) (by decide)
  exact ⟨i, h1, h5⟩

end LibraryManager
